import Mathlib

/-!
# Verification of the AFND→AFD converter and word recognizer

Shallow embedding of `parte1_converter_afnd.py` and
`parte2_reconhecer_palavra.py`.

States and symbols are strings.  The nondeterministic transition relation is
kept as the list of transition triples `(origem, simbolo, destino)` read from
the input file; the Python dictionary `transicoes[(origem, simbolo)] = set of
destinos` is recovered by `transGet`, which collects every destination of a
given `(origem, simbolo)` key.  Python dictionaries with single-valued entries
(the AFD transition table, the composite-state name map) are embedded as
association lists with Python's insert-or-overwrite assignment (`dictInsert`)
and first-match lookup (`dictGet`).
-/

set_option maxRecDepth 10000

/-! ## String order and sorting

Python's `sorted` on strings is the lexicographic order on code points.  The
comparator below is that order, written as a structurally recursive Boolean
function (so that concrete runs reduce inside the kernel), and `ordenaFinset`
linearizes a finite set of strings in that order via insertion sort. -/

/-- Lexicographic comparison of char lists by code point. -/
def lexLeB : List Char → List Char → Bool
  | [], _ => true
  | _ :: _, [] => false
  | c :: cs, d :: ds => if c < d then true else if d < c then false else lexLeB cs ds

/-- Lexicographic order on strings, as used by Python's `sorted`. -/
def strLe (a b : String) : Prop := lexLeB a.data b.data = true

instance : DecidableRel strLe := fun a b => by unfold strLe; infer_instance

instance : IsTotal String strLe := by
  constructor
  suffices h : ∀ l m : List Char, lexLeB l m = true ∨ lexLeB m l = true from
    fun a b => h a.data b.data
  intro l
  induction l with
  | nil => exact fun _ => Or.inl rfl
  | cons c cs ih =>
    intro m
    cases m with
    | nil => exact Or.inr rfl
    | cons d ds =>
      rcases lt_trichotomy c d with h | h | h
      · exact Or.inl (by simp [lexLeB, h])
      · subst h
        rcases ih ds with h2 | h2
        · exact Or.inl (by simp [lexLeB, lt_irrefl, h2])
        · exact Or.inr (by simp [lexLeB, lt_irrefl, h2])
      · exact Or.inr (by simp [lexLeB, h])

instance : IsTrans String strLe := by
  constructor
  suffices h : ∀ l m n : List Char,
      lexLeB l m = true → lexLeB m n = true → lexLeB l n = true from
    fun a b c => h a.data b.data c.data
  intro l
  induction l with
  | nil => exact fun _ _ _ _ => rfl
  | cons c cs ih =>
    intro m n h1 h2
    cases m with
    | nil => simp [lexLeB] at h1
    | cons d ds =>
      cases n with
      | nil => simp [lexLeB] at h2
      | cons e es =>
        rcases lt_trichotomy c d with h | h | h
        · rcases lt_trichotomy d e with g | g | g
          · simp [lexLeB, lt_trans h g]
          · subst g; simp [lexLeB, h]
          · have := lt_asymm g
            simp [lexLeB, this, g] at h2
        · subst h
          rcases lt_trichotomy c e with g | g | g
          · simp [lexLeB, g]
          · subst g
            simp [lexLeB, lt_irrefl] at h1 h2 ⊢
            exact ih ds es h1 h2
          · have := lt_asymm g
            simp [lexLeB, this, g] at h2
        · have := lt_asymm h
          simp [lexLeB, this, h] at h1

instance : IsAntisymm String strLe := by
  constructor
  suffices h : ∀ l m : List Char, lexLeB l m = true → lexLeB m l = true → l = m from
    fun a b h1 h2 => String.ext (h a.data b.data h1 h2)
  intro l
  induction l with
  | nil =>
    intro m _ h2
    cases m with
    | nil => rfl
    | cons d ds => simp [lexLeB] at h2
  | cons c cs ih =>
    intro m h1 h2
    cases m with
    | nil => simp [lexLeB] at h1
    | cons d ds =>
      rcases lt_trichotomy c d with h | h | h
      · have := lt_asymm h
        simp [lexLeB, this, h] at h2
      · subst h
        simp [lexLeB, lt_irrefl] at h1 h2
        rw [ih ds h1 h2]
      · have := lt_asymm h
        simp [lexLeB, this, h] at h1

/-- Sorting a multiset of strings in Python's string order: insertion sort of
any representative list (well defined because sorting two permuted lists in a
total, transitive, antisymmetric order yields the same list). -/
def ordenaMultiset (m : Multiset String) : List String :=
  Quot.liftOn m (fun l => l.insertionSort strLe) fun _ _ h =>
    List.eq_of_perm_of_sorted
      (((List.perm_insertionSort strLe _).trans h).trans
        (List.perm_insertionSort strLe _).symm)
      (List.sorted_insertionSort strLe _) (List.sorted_insertionSort strLe _)

/-- `sorted(list(s))` of Python on a set of strings. -/
def ordenaFinset (s : Finset String) : List String := ordenaMultiset s.val

/-- A nondeterministic transition triple `(origem, simbolo, destino)`. -/
abbrev Transicao := String × String × String

/-- `transicoes.get((q, s), set())` of the Python code: all destinations of
transitions with origin `q` and symbol `s`. -/
def transGet (rel : List Transicao) (q s : String) : Finset String :=
  ((rel.filter fun t => t.1 = q ∧ t.2.1 = s).map fun t => t.2.2).toFinset

/-- All destination states appearing in the relation (a finite universe that
bounds everything the closure computation can ever add). -/
def destsOf (rel : List Transicao) : Finset String :=
  (rel.map fun t => t.2.2).toFinset

/-- Python dict assignment `m[k] = v`: overwrite in place if the key is
present, else append. -/
def dictInsert {α β : Type} [DecidableEq α] (m : List (α × β)) (k : α) (v : β) :
    List (α × β) :=
  match m with
  | [] => [(k, v)]
  | p :: resto => if p.1 = k then (k, v) :: resto else p :: dictInsert resto k v

/-- Python dict lookup `m.get(k)`: first matching entry (keys are unique under
`dictInsert`, so first match is the entry). -/
def dictGet {α β : Type} [DecidableEq α] (m : List (α × β)) (k : α) : Option β :=
  match m with
  | [] => none
  | p :: resto => if p.1 = k then some p.2 else dictGet resto k

/-- Python `str.split()`: split on whitespace, dropping empty fields. -/
def palavrasDe (s : String) : List String :=
  ((s.data.splitOnP Char.isWhitespace).map fun l => String.mk l).filter (· ≠ "")

/-- Python `str.strip()`: drop leading and trailing whitespace. -/
def tiraEspacos (s : String) : String :=
  String.mk (((s.data.dropWhile Char.isWhitespace).reverse.dropWhile
    Char.isWhitespace).reverse)

/-! ## `fecho_vazio` (epsilon closure, `parte1_converter_afnd.py` lines 70–99)

The inner `for destino in destinos_vazios` loop is `fechoStep`; the outer
`while pilha` loop is `fechoAux`.  The loop is driven by explicit fuel; the
fuel chosen in `fecho_vazio` is proved sufficient below (the returned stack is
empty), so the cutoff branch is never taken. -/

/-- Epsilon successors of `q`: `transicoes.get((q, 'h'), set())`, as the list
of matching destinations (duplicates are harmless: membership in `fecho` is
checked before inserting/pushing). -/
def epsList (rel : List Transicao) (q : String) : List String :=
  (rel.filter fun t => t.1 = q ∧ t.2.1 = "h").map fun t => t.2.2

/-- The `for destino in destinos_vazios` loop: each destination not yet in
`fecho` is added to `fecho` and pushed onto the stack. -/
def fechoStep (fecho : Finset String) (pilha : List String) :
    List String → Finset String × List String
  | [] => (fecho, pilha)
  | d :: ds =>
    if d ∈ fecho then fechoStep fecho pilha ds
    else fechoStep (insert d fecho) (d :: pilha) ds

/-- The `while pilha` loop, with fuel.  Returns the closure set together with
the remaining stack (empty iff the loop ran to completion). -/
def fechoAux (rel : List Transicao) : Nat → Finset String → List String →
    Finset String × List String
  | _, fecho, [] => (fecho, [])
  | 0, fecho, q :: resto => (fecho, q :: resto)
  | fuel + 1, fecho, q :: resto =>
    let p := fechoStep fecho resto (epsList rel q)
    fechoAux rel fuel p.1 p.2

/-- `fecho_vazio(estados_origem, transicoes)`: `fecho` starts as the seed set,
the stack starts with the seed's elements (Python iterates the seed set in an
unspecified order; the result does not depend on it, and the embedding fixes
the sorted order).  The fuel `|destsOf rel| + |origem|` is proved sufficient
(`fecho_vazio_termina`). -/
def fecho_vazio (origem : Finset String) (rel : List Transicao) : Finset String :=
  (fechoAux rel ((destsOf rel).card + origem.card) origem (ordenaFinset origem)).1

/-- `mover(estados_origem, simbolo, transicoes)`: union over the origin set of
the destinations on `simbolo`. -/
def mover (origem : Finset String) (simbolo : String) (rel : List Transicao) :
    Finset String :=
  origem.biUnion fun estado => transGet rel estado simbolo

/-! ## Automaton model -/

/-- The AFND dictionary returned by `ler_afnd`. -/
structure AFND where
  estados : Finset String
  alfabeto : List String
  transicoes : List Transicao
  estado_inicial : String
  estados_finais : Finset String
deriving DecidableEq

/-- The AFD dictionary produced by `converter_afnd_para_afd` / read by
`ler_afd`.  `transicoes` is the (state, symbol) ↦ state dictionary as an
association list with `dictInsert` assignment semantics. -/
structure AFD where
  estados : Finset String
  alfabeto : List String
  transicoes : List ((String × String) × String)
  estado_inicial : String
  estados_finais : Finset String
deriving DecidableEq

/-- Finite universe containing every state that can ever occur in a composite
state during subset construction: the initial state plus every transition
destination. -/
def universo (afnd : AFND) : Finset String :=
  insert afnd.estado_inicial (destsOf afnd.transicoes)

/-- One step of the nondeterministic simulation: ε-closure of the move. -/
def nfaStep (rel : List Transicao) (S : Finset String) (a : String) : Finset String :=
  fecho_vazio (mover S a rel) rel

/-! ## `converter_afnd_para_afd` (lines 115–187) -/

/-- `gerar_nome_estado`: concatenation of the sorted member names. -/
def gerar_nome_estado (conjunto : Finset String) : String :=
  String.join (ordenaFinset conjunto)

/-- The mutable state of the subset-construction loop: the BFS queue `fila`
(head = front), the set `estados_afd_explorados`, the name dictionary
`mapa_nomes_estados`, the AFD transition dictionary and the set of composite
states marked final. -/
structure BuildSt where
  fila : List (Finset String)
  explorados : Finset (Finset String)
  mapa : List (Finset String × String)
  trans : List ((String × String) × String)
  finais : Finset (Finset String)
deriving DecidableEq

/-- `mapa_nomes_estados[k]` — defined when the key is present (which is an
invariant of the construction, proved below); the `""` default is never
reached on the states the algorithm looks up. -/
def mapaGet (m : List (Finset String × String)) (k : Finset String) : String :=
  (dictGet m k).getD ""

/-- The body of `for simbolo in afnd["alfabeto"]` (lines 154–177): compute
`mover` then its ε-closure; if nonempty, discover/enqueue/name the composite
if new, and record the transition under the descriptive names. -/
def processSymbol (afnd : AFND) (atual : Finset String) (st : BuildSt)
    (simbolo : String) : BuildSt :=
  let prox := fecho_vazio (mover atual simbolo afnd.transicoes) afnd.transicoes
  if prox = ∅ then st
  else
    let st1 :=
      if prox ∈ st.explorados then st
      else
        { st with
          explorados := insert prox st.explorados
          fila := st.fila ++ [prox]
          mapa := dictInsert st.mapa prox (gerar_nome_estado prox) }
    { st1 with
      trans := dictInsert st1.trans (mapaGet st1.mapa atual, simbolo)
        (mapaGet st1.mapa prox) }

/-- Processing one dequeued composite state (lines 146–177): mark it final if
it meets an original final state, then range over the alphabet. -/
def converterPasso (afnd : AFND) (atual : Finset String) (st : BuildSt) :
    BuildSt :=
  let st0 :=
    if atual ∩ afnd.estados_finais ≠ ∅ then { st with finais := insert atual st.finais }
    else st
  afnd.alfabeto.foldl (processSymbol afnd atual) st0

/-- The `while fila` loop, with fuel (proved sufficient below: the final queue
is empty). -/
def converterLoop (afnd : AFND) : Nat → BuildSt → BuildSt
  | _, ⟨[], e, m, t, f⟩ => ⟨[], e, m, t, f⟩
  | 0, st => st
  | fuel + 1, ⟨atual :: resto, e, m, t, f⟩ =>
    converterLoop afnd fuel (converterPasso afnd atual ⟨resto, e, m, t, f⟩)

/-- The whole exploration: seed with the ε-closure of the initial state and
run the loop.  `2 ^ |universo|` bounds the number of distinct composite states
and hence (proved below) suffices for the queue to drain. -/
def converter_build (afnd : AFND) : BuildSt :=
  let S0 := fecho_vazio {afnd.estado_inicial} afnd.transicoes
  converterLoop afnd (2 ^ (universo afnd).card)
    ⟨[S0], {S0}, [(S0, gerar_nome_estado S0)], [], ∅⟩

/-- `converter_afnd_para_afd` (the returned dictionary, lines 180–187; the
diagnostic reverse map `mapa_original` is not part of the automaton and is
omitted). -/
def converter_afnd_para_afd (afnd : AFND) : AFD :=
  let S0 := fecho_vazio {afnd.estado_inicial} afnd.transicoes
  let stF := converter_build afnd
  { estados := (stF.mapa.map Prod.snd).toFinset
    alfabeto := afnd.alfabeto
    transicoes := stF.trans
    estado_inicial := mapaGet stF.mapa S0
    estados_finais := stF.finais.image fun S => mapaGet stF.mapa S }

/-! ## `reconhecer_palavras` (`parte2_reconhecer_palavra.py`) -/

/-- `ler_afd` (lines 8–50).  The line `origem, simbolo, destino =
linha.split()` raises `ValueError` when the field count is not three and the
exception is not caught, aborting the read: this is modelled by `none`. -/
def ler_afd (linhas_brutas : List String) : Option AFD :=
  let linhas := (linhas_brutas.map tiraEspacos).filter (· ≠ "")
  match linhas with
  | l0 :: l1 :: l2 :: resto =>
    let passo : Option (List ((String × String) × String) × Finset String) →
        String → Option (List ((String × String) × String) × Finset String) :=
      fun acc linha =>
        match acc with
        | none => none
        | some (tabela, alfa) =>
          match palavrasDe linha with
          | [origem, simbolo, destino] =>
            some (dictInsert tabela (origem, simbolo) destino, insert simbolo alfa)
          | _ => none
    match resto.foldl passo (some ([], ∅)) with
    | none => none
    | some (tabela, alfa) =>
      some
        { estados := (palavrasDe l0).toFinset
          alfabeto := ordenaFinset alfa
          transicoes := tabela
          estado_inicial := l1
          estados_finais := (palavrasDe l2).toFinset }
  | _ => none

/-- The `for simbolo in palavra` simulation loop (lines 89–105): reject on a
symbol outside the alphabet, reject on an undefined transition, otherwise
advance; after the loop, accept iff the final state is final (line 111). -/
def simular (afd : AFD) : String → List Char → Bool
  | estado, [] => estado ∈ afd.estados_finais
  | estado, c :: resto =>
    if String.singleton c ∉ afd.alfabeto then false
    else
      match dictGet afd.transicoes (estado, String.singleton c) with
      | none => false
      | some prox => simular afd prox resto

/-- Recognition of one word: the empty word is accepted iff the initial state
is final (lines 78–85); otherwise the simulation loop runs from the initial
state. -/
def reconhecerPalavra (afd : AFD) (palavra : List Char) : Bool :=
  if palavra = [] then afd.estado_inicial ∈ afd.estados_finais
  else simular afd afd.estado_inicial palavra

/-- `reconhecer_palavras` on the list of raw lines of the word file: lines are
stripped and *empty lines are dropped* (line 60) before the per-word loop;
each surviving word yields one output line. -/
def reconhecer_palavras (afd : AFD) (linhas_brutas : List String) : List String :=
  let palavras := (linhas_brutas.map tiraEspacos).filter (· ≠ "")
  palavras.map fun palavra =>
    if palavra = "" then
      if afd.estado_inicial ∈ afd.estados_finais then "(palavra vazia) aceito"
      else "(palavra vazia) nao aceito"
    else
      palavra ++ (if simular afd afd.estado_inicial palavra.data then " aceito"
        else " nao aceito")

/-! ## `ler_afnd` (`parte1_converter_afnd.py` lines 11–67) -/

/-- Processing of one transition line of the AFND file (lines 34–58): a line
with a field count other than three is skipped with a warning; a symbol other
than `0`, `1`, `h` is coerced to `h` with a warning; non-`h` symbols join the
alphabet; the triple is added to the relation. -/
def lerLinhaAFND (st : List Transicao × Finset String × List String)
    (linha : String) : List Transicao × Finset String × List String :=
  match palavrasDe linha with
  | [origem, simbolo, destino] =>
    let simbolo2 :=
      if simbolo ≠ "0" ∧ simbolo ≠ "1" ∧ simbolo ≠ "h" then "h" else simbolo
    let avisos2 :=
      if simbolo ≠ "0" ∧ simbolo ≠ "1" ∧ simbolo ≠ "h" then
        st.2.2 ++ ["Aviso: Símbolo '" ++ simbolo ++ "' na linha '" ++ linha
          ++ "' não pertence ao alfabeto \x7b0,1\x7d ou 'h'. Foi interpretado como 'h'."]
      else st.2.2
    let alfa2 := if simbolo2 ≠ "h" then insert simbolo2 st.2.1 else st.2.1
    (st.1 ++ [(origem, simbolo2, destino)], alfa2, avisos2)
  | _ =>
    (st.1, st.2.1,
      st.2.2 ++ ["Aviso: Ignorando linha de transição mal formatada: '" ++ linha ++ "'"])

/-- `ler_afnd` on the already stripped and blank-filtered lines: the first
three lines are the header, the rest are transition lines folded through
`lerLinhaAFND`. -/
def lerAFNDLinhas (linhas : List String) : Option (AFND × List String) :=
  match linhas with
  | l0 :: l1 :: l2 :: resto =>
    let trio := resto.foldl lerLinhaAFND ([], ∅, [])
    some
      ({ estados := (palavrasDe l0).toFinset
         alfabeto := ordenaFinset trio.2.1
         transicoes := trio.1
         estado_inicial := l1
         estados_finais := (palavrasDe l2).toFinset }, trio.2.2)
  | _ => none

/-- `ler_afnd` on the raw lines of the input file (file-not-found is handled
outside; with fewer than three nonblank lines the header indexing raises,
modelled by `none`).  Returns the automaton together with the emitted
warnings. -/
def ler_afnd (linhas_brutas : List String) : Option (AFND × List String) :=
  lerAFNDLinhas ((linhas_brutas.map tiraEspacos).filter (· ≠ ""))

/-! ## Specification-side definitions -/

/-- Run of the direct nondeterministic simulation: start from the ε-closure of
the initial state, and for each symbol apply closure∘move. -/
def nfaRun (afnd : AFND) (w : List Char) : Finset String :=
  w.foldl (fun S c => nfaStep afnd.transicoes S (String.singleton c))
    (fecho_vazio {afnd.estado_inicial} afnd.transicoes)

/-- Acceptance by the direct nondeterministic simulation (closure + move):
the configuration reached after the word meets the final-state set. -/
def nfaAceita (afnd : AFND) (w : List Char) : Prop :=
  nfaRun afnd w ∩ afnd.estados_finais ≠ ∅

instance (afnd : AFND) (w : List Char) : Decidable (nfaAceita afnd w) := by
  unfold nfaAceita; infer_instance

/-- A state set closed under following epsilon edges. -/
def Closed (rel : List Transicao) (T : Finset String) : Prop :=
  ∀ q ∈ T, ∀ d ∈ epsList rel q, d ∈ T

/-- Modelled from the spec (§4.4): the partial run function of the
deterministic recognizer — `none` as soon as a symbol is outside the alphabet
or the transition is undefined, otherwise the state reached. -/
def deltaStar (afd : AFD) : String → List Char → Option String
  | estado, [] => some estado
  | estado, c :: resto =>
    if String.singleton c ∉ afd.alfabeto then none
    else
      match dictGet afd.transicoes (estado, String.singleton c) with
      | none => none
      | some prox => deltaStar afd prox resto

/-! ## Concrete example automata -/

/-- The example NFA of the specification: states A, B, C, an epsilon edge
A→B, a transition B–0→C, C final, initial state A, alphabet {0, 1}. -/
def nfaExemplo : AFND :=
  { estados := {"A", "B", "C"}
    alfabeto := ["0", "1"]
    transicoes := [("A", "h", "B"), ("B", "0", "C")]
    estado_inicial := "A"
    estados_finais := {"C"} }

/-- An AFND whose state identifiers make the concatenation naming collide:
the composite state {A, B} (the initial ε-closure) and the composite state
{AB} (reached on symbol 0) are both named "AB". -/
def nfaColisao : AFND :=
  { estados := {"A", "B", "AB"}
    alfabeto := ["0"]
    transicoes := [("A", "h", "B"), ("A", "0", "AB")]
    estado_inicial := "A"
    estados_finais := {"AB"} }

/-- A small AFD used to exercise the recognizer directly. -/
def afdSimples : AFD :=
  { estados := {"A", "C"}
    alfabeto := ["0"]
    transicoes := [(("A", "0"), "C")]
    estado_inicial := "A"
    estados_finais := {"C"} }

/-! ## Invariants of the subset construction -/

/-- Names are collision-free on the composite states that can arise (all of
which are subsets of `universo afnd`).  This holds e.g. whenever every state
identifier is a single character (`nomes_inj_of_len1`), and fails in general
(`gerar_nome_colide`). -/
def NomesInj (afnd : AFND) : Prop :=
  ∀ S T : Finset String, S ⊆ universo afnd → T ⊆ universo afnd →
    gerar_nome_estado S = gerar_nome_estado T → S = T

/-- The loop invariant of `converter_afnd_para_afd` that holds for every
input automaton. -/
structure Inv1 (afnd : AFND) (st : BuildSt) : Prop where
  keysNodup : (st.mapa.map Prod.fst).Nodup
  keysExpl : ∀ S : Finset String, S ∈ st.explorados ↔ S ∈ st.mapa.map Prod.fst
  vals : ∀ p ∈ st.mapa, p.2 = gerar_nome_estado p.1
  bounds : ∀ S ∈ st.explorados, S ≠ ∅ ∧ S ⊆ universo afnd
  filaSub : ∀ S ∈ st.fila, S ∈ st.explorados
  filaNodup : st.fila.Nodup
  transChar : ∀ e ∈ st.trans, ∃ S a, S ∈ st.explorados ∧ a ∈ afnd.alfabeto ∧
    nfaStep afnd.transicoes S a ≠ ∅ ∧ nfaStep afnd.transicoes S a ∈ st.explorados ∧
    e = ((gerar_nome_estado S, a),
      gerar_nome_estado (nfaStep afnd.transicoes S a))
  transNodup : (st.trans.map Prod.fst).Nodup
  finaisSub : ∀ S ∈ st.finais, S ∈ st.explorados ∧ S ∩ afnd.estados_finais ≠ ∅
  finaisDone : ∀ S ∈ st.explorados, S ∉ st.fila → S ∩ afnd.estados_finais ≠ ∅ →
    S ∈ st.finais
  inicialMem : fecho_vazio {afnd.estado_inicial} afnd.transicoes ∈ st.explorados

/-- The transition on symbol `a` out of composite state `S` has been fully
recorded: if the ε-closure of the move is nonempty, it is a discovered state
and the transition dictionary maps `(name of S, a)` to its name. -/
def DoneAt (afnd : AFND) (E : Finset (Finset String))
    (tabela : List ((String × String) × String)) (S : Finset String)
    (a : String) : Prop :=
  nfaStep afnd.transicoes S a ≠ ∅ →
    nfaStep afnd.transicoes S a ∈ E ∧
    dictGet tabela (gerar_nome_estado S, a) =
      some (gerar_nome_estado (nfaStep afnd.transicoes S a))

/-- Every already-processed composite state (discovered but no longer queued)
has all its outgoing transitions recorded. -/
def Inv2 (afnd : AFND) (st : BuildSt) : Prop :=
  ∀ S ∈ st.explorados, S ∉ st.fila → ∀ a ∈ afnd.alfabeto,
    DoneAt afnd st.explorados st.trans S a

/-! ## Sorting lemmas -/

theorem ordenaMultiset_perm (m : Multiset String) :
    (ordenaMultiset m : Multiset String) = m :=
  Quotient.inductionOn m fun l => Quot.sound (List.perm_insertionSort strLe l)

theorem mem_ordenaFinset {x : String} {s : Finset String} :
    x ∈ ordenaFinset s ↔ x ∈ s := by
  rw [Finset.mem_def, ← ordenaMultiset_perm s.val, Multiset.mem_coe]
  exact Iff.rfl

theorem length_ordenaFinset (s : Finset String) :
    (ordenaFinset s).length = s.card := by
  have h := congrArg Multiset.card (ordenaMultiset_perm s.val)
  simpa using h

theorem ordenaFinset_inj {s t : Finset String}
    (h : ordenaFinset s = ordenaFinset t) : s = t := by
  ext x
  rw [← mem_ordenaFinset, ← mem_ordenaFinset, h]

theorem join_inj_len1 : ∀ l m : List String, (∀ x ∈ l, x.length = 1) →
    (∀ x ∈ m, x.length = 1) → String.join l = String.join m → l = m := by
  intro l
  induction l with
  | nil =>
    intro m _ hm h
    cases m with
    | nil => rfl
    | cons b bs =>
      exfalso
      have hd := congrArg String.data h
      rw [String.data_join, String.data_join] at hd
      obtain ⟨c, hc⟩ := List.length_eq_one.mp (hm b (by simp))
      simp [hc] at hd
  | cons a as ih =>
    intro m hl hm h
    cases m with
    | nil =>
      exfalso
      have hd := congrArg String.data h
      rw [String.data_join, String.data_join] at hd
      obtain ⟨c, hc⟩ := List.length_eq_one.mp (hl a (by simp))
      simp [hc] at hd
    | cons b bs =>
      have hd := congrArg String.data h
      rw [String.data_join, String.data_join] at hd
      obtain ⟨c, hc⟩ := List.length_eq_one.mp (hl a (by simp))
      obtain ⟨d, hdd⟩ := List.length_eq_one.mp (hm b (by simp))
      simp [hc, hdd] at hd
      have hab : a = b := String.ext (by rw [hc, hdd, hd.1])
      have hjoin : String.join as = String.join bs :=
        String.ext (by rw [String.data_join, String.data_join]; exact hd.2)
      rw [hab, ih bs (fun x hx => hl x (by simp [hx]))
        (fun x hx => hm x (by simp [hx])) hjoin]

theorem gerar_nome_estado_inj {S T : Finset String}
    (hS : ∀ s ∈ S, s.length = 1) (hT : ∀ s ∈ T, s.length = 1)
    (h : gerar_nome_estado S = gerar_nome_estado T) : S = T :=
  ordenaFinset_inj (join_inj_len1 _ _ (fun x hx => hS x (mem_ordenaFinset.mp hx))
    (fun x hx => hT x (mem_ordenaFinset.mp hx)) h)

/-! ## Dictionary lemmas -/

theorem dictGet_dictInsert_self {α β : Type} [DecidableEq α]
    (m : List (α × β)) (k : α) (v : β) :
    dictGet (dictInsert m k v) k = some v := by
  induction m with
  | nil => simp [dictInsert, dictGet]
  | cons p resto ih =>
    by_cases h : p.1 = k
    · simp [dictInsert, h, dictGet]
    · simp [dictInsert, h, dictGet, ih]

theorem dictGet_dictInsert_ne {α β : Type} [DecidableEq α]
    (m : List (α × β)) (k k2 : α) (v : β) (h : k2 ≠ k) :
    dictGet (dictInsert m k v) k2 = dictGet m k2 := by
  have h1 : ¬ k = k2 := fun hh => h hh.symm
  induction m with
  | nil => simp [dictInsert, dictGet, h1]
  | cons p resto ih =>
    by_cases hp : p.1 = k
    · simp [dictInsert, hp, dictGet, h1]
    · simp [dictInsert, hp, dictGet, ih]

theorem mem_dictInsert {α β : Type} [DecidableEq α]
    {m : List (α × β)} {k : α} {v : β} {e : α × β} (he : e ∈ dictInsert m k v) :
    e = (k, v) ∨ e ∈ m := by
  induction m with
  | nil => simpa [dictInsert] using he
  | cons p resto ih =>
    by_cases h : p.1 = k
    · simp [dictInsert, h] at he
      rcases he with he | he
      · exact Or.inl (by simp [he])
      · exact Or.inr (by simp [he])
    · simp [dictInsert, h] at he
      rcases he with he | he
      · exact Or.inr (by simp [he])
      · rcases ih he with h2 | h2
        · exact Or.inl h2
        · exact Or.inr (by simp [h2])

theorem keys_dictInsert {α β : Type} [DecidableEq α]
    {m : List (α × β)} {k : α} {v : β} {x : α}
    (hx : x ∈ (dictInsert m k v).map Prod.fst) :
    x = k ∨ x ∈ m.map Prod.fst := by
  rw [List.mem_map] at hx
  obtain ⟨e, he, hfst⟩ := hx
  rcases mem_dictInsert he with h | h
  · subst h
    exact Or.inl hfst.symm
  · exact Or.inr (List.mem_map.mpr ⟨e, h, hfst⟩)

theorem keys_dictInsert_nodup {α β : Type} [DecidableEq α]
    {m : List (α × β)} (k : α) (v : β) (h : (m.map Prod.fst).Nodup) :
    ((dictInsert m k v).map Prod.fst).Nodup := by
  induction m with
  | nil => simp [dictInsert]
  | cons p resto ih =>
    rw [List.map_cons, List.nodup_cons] at h
    by_cases hp : p.1 = k
    · simp only [dictInsert, if_pos hp]
      rw [List.map_cons, List.nodup_cons]
      exact ⟨by rw [← hp]; exact h.1, h.2⟩
    · simp only [dictInsert, if_neg hp]
      rw [List.map_cons, List.nodup_cons]
      refine ⟨fun hmem => ?_, ih h.2⟩
      rcases keys_dictInsert hmem with h2 | h2
      · exact hp h2
      · exact h.1 h2

theorem dictInsert_of_not_mem {α β : Type} [DecidableEq α]
    {m : List (α × β)} {k : α} (v : β) (h : k ∉ m.map Prod.fst) :
    dictInsert m k v = m ++ [(k, v)] := by
  induction m with
  | nil => simp [dictInsert]
  | cons p resto ih =>
    rw [List.map_cons] at h
    have hp : ¬ p.1 = k := fun hh => h (by rw [hh]; exact List.mem_cons_self _ _)
    have h2 : k ∉ resto.map Prod.fst := fun hh => h (List.mem_cons_of_mem _ hh)
    simp only [dictInsert, if_neg hp]
    rw [ih h2, List.cons_append]

theorem dictGet_eq_none_iff {α β : Type} [DecidableEq α]
    (m : List (α × β)) (k : α) :
    dictGet m k = none ↔ k ∉ m.map Prod.fst := by
  induction m with
  | nil => simp [dictGet]
  | cons p resto ih =>
    by_cases h : p.1 = k
    · simp only [dictGet, if_pos h]
      constructor
      · intro hh
        exact absurd hh (by simp)
      · intro hh
        exact absurd (by rw [List.map_cons, ← h]; exact List.mem_cons_self _ _) hh
    · simp only [dictGet, if_neg h, ih]
      rw [List.map_cons]
      constructor
      · intro hh h2
        rcases List.mem_cons.mp h2 with h3 | h3
        · exact h h3.symm
        · exact hh h3
      · intro hh h2
        exact hh (List.mem_cons_of_mem _ h2)

theorem dictGet_mem {α β : Type} [DecidableEq α]
    {m : List (α × β)} {k : α} {v : β} (h : dictGet m k = some v) :
    (k, v) ∈ m := by
  induction m with
  | nil => simp [dictGet] at h
  | cons p resto ih =>
    by_cases hp : p.1 = k
    · simp only [dictGet, if_pos hp, Option.some.injEq] at h
      exact List.mem_cons.mpr (Or.inl (by rw [Prod.ext_iff]; exact ⟨hp.symm, h.symm⟩))
    · simp only [dictGet, if_neg hp] at h
      exact List.mem_cons_of_mem _ (ih h)

theorem mapaGet_eq_gerar (m : List (Finset String × String))
    (hv : ∀ p ∈ m, p.2 = gerar_nome_estado p.1) (k : Finset String)
    (hk : k ∈ m.map Prod.fst) : mapaGet m k = gerar_nome_estado k := by
  induction m with
  | nil => simp at hk
  | cons p resto ih =>
    by_cases h : p.1 = k
    · simp only [mapaGet, dictGet, if_pos h, Option.getD_some]
      rw [hv p (List.mem_cons_self _ _), h]
    · simp only [mapaGet, dictGet, if_neg h]
      rw [List.map_cons] at hk
      rcases List.mem_cons.mp hk with h2 | h2
      · exact absurd h2.symm h
      · exact ih (fun q hq => hv q (List.mem_cons_of_mem _ hq)) h2

/-! ## Lemmas about the closure worklist -/

theorem epsList_subset_dests (rel : List Transicao) (q : String) :
    ∀ x ∈ epsList rel q, x ∈ destsOf rel := by
  intro x hx
  simp only [epsList, List.mem_map, List.mem_filter] at hx
  obtain ⟨t, ⟨ht, _⟩, hx⟩ := hx
  simp only [destsOf, List.mem_toFinset, List.mem_map]
  exact ⟨t, ht, hx⟩

theorem fechoStep_fst (fecho : Finset String) (pilha ds : List String) :
    (fechoStep fecho pilha ds).1 = fecho ∪ ds.toFinset := by
  induction ds generalizing fecho pilha with
  | nil => simp [fechoStep]
  | cons d ds ih =>
    by_cases h : d ∈ fecho
    · rw [show fechoStep fecho pilha (d :: ds) = fechoStep fecho pilha ds by
        simp [fechoStep, h], ih]
      ext x
      simp only [Finset.mem_union, List.toFinset_cons, Finset.mem_insert,
        List.mem_toFinset]
      constructor
      · rintro (hx | hx)
        · exact Or.inl hx
        · exact Or.inr (Or.inr hx)
      · rintro (hx | hx | hx)
        · exact Or.inl hx
        · exact Or.inl (hx ▸ h)
        · exact Or.inr hx
    · rw [show fechoStep fecho pilha (d :: ds) =
          fechoStep (insert d fecho) (d :: pilha) ds by simp [fechoStep, h], ih]
      rw [List.toFinset_cons, Finset.insert_union, Finset.union_insert]

theorem fechoStep_snd_mem (fecho : Finset String) (pilha ds : List String) :
    ∀ x ∈ (fechoStep fecho pilha ds).2, x ∈ pilha ∨ x ∈ ds := by
  induction ds generalizing fecho pilha with
  | nil =>
    intro x hx
    exact Or.inl (by simpa [fechoStep] using hx)
  | cons d ds ih =>
    intro x hx
    by_cases h : d ∈ fecho
    · rw [show fechoStep fecho pilha (d :: ds) = fechoStep fecho pilha ds by
        simp [fechoStep, h]] at hx
      rcases ih _ _ x hx with h2 | h2
      · exact Or.inl h2
      · exact Or.inr (List.mem_cons_of_mem _ h2)
    · rw [show fechoStep fecho pilha (d :: ds) =
          fechoStep (insert d fecho) (d :: pilha) ds by simp [fechoStep, h]] at hx
      rcases ih _ _ x hx with h2 | h2
      · rcases List.mem_cons.mp h2 with h3 | h3
        · exact Or.inr (h3 ▸ List.mem_cons_self _ _)
        · exact Or.inl h3
      · exact Or.inr (List.mem_cons_of_mem _ h2)

theorem fechoStep_snd_mono (fecho : Finset String) (pilha ds : List String) :
    ∀ x ∈ pilha, x ∈ (fechoStep fecho pilha ds).2 := by
  induction ds generalizing fecho pilha with
  | nil =>
    intro x hx
    simpa [fechoStep] using hx
  | cons d ds ih =>
    intro x hx
    by_cases h : d ∈ fecho
    · rw [show fechoStep fecho pilha (d :: ds) = fechoStep fecho pilha ds by
        simp [fechoStep, h]]
      exact ih _ _ x hx
    · rw [show fechoStep fecho pilha (d :: ds) =
          fechoStep (insert d fecho) (d :: pilha) ds by simp [fechoStep, h]]
      exact ih _ _ x (List.mem_cons_of_mem _ hx)

theorem fechoStep_push (fecho : Finset String) (pilha ds : List String) :
    ∀ d ∈ ds, d ∉ fecho → d ∈ (fechoStep fecho pilha ds).2 := by
  induction ds generalizing fecho pilha with
  | nil => intro d hd; simp at hd
  | cons d0 ds ih =>
    intro d hd hdf
    rcases List.mem_cons.mp hd with h1 | h1
    · subst h1
      rw [show fechoStep fecho pilha (d :: ds) =
          fechoStep (insert d fecho) (d :: pilha) ds by simp [fechoStep, hdf]]
      exact fechoStep_snd_mono _ _ _ d (List.mem_cons_self _ _)
    · by_cases h0 : d0 ∈ fecho
      · rw [show fechoStep fecho pilha (d0 :: ds) = fechoStep fecho pilha ds by
          simp [fechoStep, h0]]
        exact ih _ _ d h1 hdf
      · rw [show fechoStep fecho pilha (d0 :: ds) =
            fechoStep (insert d0 fecho) (d0 :: pilha) ds by simp [fechoStep, h0]]
        by_cases hdd : d = d0
        · exact fechoStep_snd_mono _ _ _ d (hdd ▸ List.mem_cons_self _ _)
        · exact ih _ _ d h1 (by simp [Finset.mem_insert, hdd, hdf])

theorem fechoStep_snd_sub_fst (fecho : Finset String) (pilha ds : List String)
    (hp : ∀ x ∈ pilha, x ∈ fecho) :
    ∀ x ∈ (fechoStep fecho pilha ds).2, x ∈ (fechoStep fecho pilha ds).1 := by
  induction ds generalizing fecho pilha with
  | nil =>
    intro x hx
    simp only [fechoStep] at hx ⊢
    exact hp x hx
  | cons d ds ih =>
    intro x hx
    by_cases h : d ∈ fecho
    · rw [show fechoStep fecho pilha (d :: ds) = fechoStep fecho pilha ds by
        simp [fechoStep, h]] at hx ⊢
      exact ih _ _ hp x hx
    · rw [show fechoStep fecho pilha (d :: ds) =
          fechoStep (insert d fecho) (d :: pilha) ds by simp [fechoStep, h]] at hx ⊢
      refine ih _ _ ?_ x hx
      intro y hy
      rcases List.mem_cons.mp hy with h2 | h2
      · exact h2 ▸ Finset.mem_insert_self _ _
      · exact Finset.mem_insert_of_mem (hp y h2)

theorem fechoStep_measure (U fecho : Finset String) (pilha ds : List String)
    (hds : ∀ d ∈ ds, d ∈ U) :
    (U \ (fechoStep fecho pilha ds).1).card + (fechoStep fecho pilha ds).2.length ≤
      (U \ fecho).card + pilha.length := by
  induction ds generalizing fecho pilha with
  | nil => simp [fechoStep]
  | cons d ds ih =>
    by_cases h : d ∈ fecho
    · rw [show fechoStep fecho pilha (d :: ds) = fechoStep fecho pilha ds by
        simp [fechoStep, h]]
      exact ih _ _ fun x hx => hds x (List.mem_cons_of_mem _ hx)
    · rw [show fechoStep fecho pilha (d :: ds) =
          fechoStep (insert d fecho) (d :: pilha) ds by simp [fechoStep, h]]
      have hdm : d ∈ U \ fecho :=
        Finset.mem_sdiff.mpr ⟨hds d (List.mem_cons_self _ _), h⟩
      have hins : U \ insert d fecho = (U \ fecho).erase d := by
        ext x
        simp only [Finset.mem_sdiff, Finset.mem_insert, Finset.mem_erase]
        constructor
        · rintro ⟨hx, hx2⟩
          exact ⟨fun hh => hx2 (Or.inl hh), hx, fun hh => hx2 (Or.inr hh)⟩
        · rintro ⟨hx1, hx2, hx3⟩
          exact ⟨hx2, fun hh => hh.elim hx1 hx3⟩
      have hcard : (U \ insert d fecho).card = (U \ fecho).card - 1 := by
        rw [hins, Finset.card_erase_of_mem hdm]
      have hpos : 1 ≤ (U \ fecho).card :=
        Finset.card_pos.mpr ⟨d, hdm⟩
      have := ih (insert d fecho) (d :: pilha)
        fun x hx => hds x (List.mem_cons_of_mem _ hx)
      simp only [List.length_cons] at this ⊢
      omega

theorem fechoAux_nil (rel : List Transicao) (fuel : Nat) (fecho : Finset String) :
    fechoAux rel fuel fecho [] = (fecho, []) := by
  cases fuel <;> rfl

theorem fechoAux_succ (rel : List Transicao) (fuel : Nat) (fecho : Finset String)
    (q : String) (resto : List String) :
    fechoAux rel (fuel + 1) fecho (q :: resto) =
      fechoAux rel fuel (fechoStep fecho resto (epsList rel q)).1
        (fechoStep fecho resto (epsList rel q)).2 := rfl

theorem fechoAux_fst_mono (rel : List Transicao) (fuel : Nat)
    (fecho : Finset String) (pilha : List String) :
    fecho ⊆ (fechoAux rel fuel fecho pilha).1 := by
  induction fuel generalizing fecho pilha with
  | zero =>
    cases pilha with
    | nil => rw [fechoAux_nil]
    | cons q resto => exact fun x hx => hx
  | succ n ih =>
    cases pilha with
    | nil => rw [fechoAux_nil]
    | cons q resto =>
      rw [fechoAux_succ]
      refine Finset.Subset.trans ?_ (ih _ _)
      rw [fechoStep_fst]
      exact Finset.subset_union_left

theorem fechoAux_fst_sub (rel : List Transicao) (fuel : Nat)
    (fecho : Finset String) (pilha : List String) :
    (fechoAux rel fuel fecho pilha).1 ⊆ fecho ∪ destsOf rel := by
  induction fuel generalizing fecho pilha with
  | zero =>
    cases pilha with
    | nil =>
      rw [fechoAux_nil]
      exact Finset.subset_union_left
    | cons q resto => exact Finset.subset_union_left
  | succ n ih =>
    cases pilha with
    | nil =>
      rw [fechoAux_nil]
      exact Finset.subset_union_left
    | cons q resto =>
      rw [fechoAux_succ]
      refine Finset.Subset.trans (ih _ _) ?_
      rw [fechoStep_fst]
      intro x hx
      rcases Finset.mem_union.mp hx with hx | hx
      · rcases Finset.mem_union.mp hx with hx | hx
        · exact Finset.mem_union_left _ hx
        · exact Finset.mem_union_right _
            (epsList_subset_dests rel q x (List.mem_toFinset.mp hx))
      · exact Finset.mem_union_right _ hx

theorem fechoAux_drain (rel : List Transicao) (fuel : Nat)
    (fecho : Finset String) (pilha : List String)
    (h : (destsOf rel \ fecho).card + pilha.length ≤ fuel) :
    (fechoAux rel fuel fecho pilha).2 = [] := by
  induction fuel generalizing fecho pilha with
  | zero =>
    cases pilha with
    | nil => rw [fechoAux_nil]
    | cons q resto => simp at h
  | succ n ih =>
    cases pilha with
    | nil => rw [fechoAux_nil]
    | cons q resto =>
      rw [fechoAux_succ]
      refine ih _ _ ?_
      have := fechoStep_measure (destsOf rel) fecho resto (epsList rel q)
        (epsList_subset_dests rel q)
      simp only [List.length_cons] at h
      omega

theorem fechoAux_min (rel : List Transicao) (fuel : Nat)
    (fecho T : Finset String) (pilha : List String) (hT : Closed rel T)
    (hfT : fecho ⊆ T) (hp : ∀ x ∈ pilha, x ∈ fecho) :
    (fechoAux rel fuel fecho pilha).1 ⊆ T := by
  induction fuel generalizing fecho pilha with
  | zero =>
    cases pilha with
    | nil => rw [fechoAux_nil]; exact hfT
    | cons q resto => exact hfT
  | succ n ih =>
    cases pilha with
    | nil => rw [fechoAux_nil]; exact hfT
    | cons q resto =>
      rw [fechoAux_succ]
      refine ih _ _ ?_ ?_
      · rw [fechoStep_fst]
        intro x hx
        rcases Finset.mem_union.mp hx with hx | hx
        · exact hfT hx
        · exact hT q (hfT (hp q (List.mem_cons_self _ _))) x (List.mem_toFinset.mp hx)
      · exact fechoStep_snd_sub_fst fecho resto (epsList rel q)
          fun x hx => hp x (List.mem_cons_of_mem _ hx)

theorem fechoAux_closed (rel : List Transicao) (fuel : Nat)
    (fecho : Finset String) (pilha : List String)
    (hp : ∀ x ∈ pilha, x ∈ fecho)
    (hinv : ∀ q ∈ fecho, q ∉ pilha → ∀ d ∈ epsList rel q, d ∈ fecho)
    (hdr : (fechoAux rel fuel fecho pilha).2 = []) :
    Closed rel (fechoAux rel fuel fecho pilha).1 := by
  induction fuel generalizing fecho pilha with
  | zero =>
    cases pilha with
    | nil =>
      rw [fechoAux_nil] at hdr ⊢
      exact fun q hq => hinv q hq (by simp)
    | cons q resto => simp [fechoAux] at hdr
  | succ n ih =>
    cases pilha with
    | nil =>
      rw [fechoAux_nil] at hdr ⊢
      exact fun q hq => hinv q hq (by simp)
    | cons q resto =>
      rw [fechoAux_succ] at hdr ⊢
      refine ih _ _ ?_ ?_ hdr
      · exact fechoStep_snd_sub_fst fecho resto (epsList rel q)
          fun x hx => hp x (List.mem_cons_of_mem _ hx)
      · intro x hx hxs d hd
        rw [fechoStep_fst] at hx ⊢
        by_cases hxq : x = q
        · subst hxq
          exact Finset.mem_union_right _ (List.mem_toFinset.mpr hd)
        · by_cases hxf2 : x ∈ fecho
          · have hxr : x ∉ resto := fun hh =>
              hxs (fechoStep_snd_mono fecho resto (epsList rel q) x hh)
            have hnm : x ∉ q :: resto := by
              intro hh
              rcases List.mem_cons.mp hh with h2 | h2
              · exact hxq h2
              · exact hxr h2
            exact Finset.mem_union_left _ (hinv x hxf2 hnm d hd)
          · have hxe : x ∈ epsList rel q :=
              List.mem_toFinset.mp ((Finset.mem_union.mp hx).resolve_left hxf2)
            exact absurd (fechoStep_push fecho resto (epsList rel q) x hxe hxf2) hxs

/-! ## Properties of `fecho_vazio` -/

theorem fecho_vazio_subset (S : Finset String) (rel : List Transicao) :
    S ⊆ fecho_vazio S rel :=
  fechoAux_fst_mono rel _ S (ordenaFinset S)

theorem fecho_vazio_sub_union (S : Finset String) (rel : List Transicao) :
    fecho_vazio S rel ⊆ S ∪ destsOf rel :=
  fechoAux_fst_sub rel _ S (ordenaFinset S)

theorem fecho_vazio_drained (S : Finset String) (rel : List Transicao) :
    (fechoAux rel ((destsOf rel).card + S.card) S (ordenaFinset S)).2 = [] := by
  refine fechoAux_drain rel _ S (ordenaFinset S) ?_
  have h1 : (destsOf rel \ S).card ≤ (destsOf rel).card :=
    Finset.card_le_card (Finset.sdiff_subset)
  have h2 := length_ordenaFinset S
  omega

theorem fecho_vazio_closed (S : Finset String) (rel : List Transicao) :
    Closed rel (fecho_vazio S rel) := by
  refine fechoAux_closed rel _ S (ordenaFinset S) ?_ ?_ (fecho_vazio_drained S rel)
  · exact fun x hx => mem_ordenaFinset.mp hx
  · intro q hq hq2
    exact absurd (mem_ordenaFinset.mpr hq) hq2

theorem fecho_vazio_min (S T : Finset String) (rel : List Transicao)
    (hT : Closed rel T) (hS : S ⊆ T) : fecho_vazio S rel ⊆ T :=
  fechoAux_min rel _ S T (ordenaFinset S) hT hS fun _ hx => mem_ordenaFinset.mp hx

theorem fecho_vazio_idem (S : Finset String) (rel : List Transicao) :
    fecho_vazio (fecho_vazio S rel) rel = fecho_vazio S rel :=
  Finset.Subset.antisymm
    (fecho_vazio_min _ _ rel (fecho_vazio_closed S rel) (Finset.Subset.refl _))
    (fecho_vazio_subset _ rel)

theorem fecho_vazio_empty (rel : List Transicao) : fecho_vazio ∅ rel = ∅ := by
  unfold fecho_vazio
  rw [show ordenaFinset (∅ : Finset String) = [] from rfl, fechoAux_nil]

theorem mover_empty (simbolo : String) (rel : List Transicao) :
    mover ∅ simbolo rel = ∅ := by
  simp [mover]

theorem nfaStep_empty (rel : List Transicao) (a : String) :
    nfaStep rel ∅ a = ∅ := by
  rw [nfaStep, mover_empty, fecho_vazio_empty]

theorem mover_sub_dests (S : Finset String) (simbolo : String)
    (rel : List Transicao) : mover S simbolo rel ⊆ destsOf rel := by
  intro x hx
  rw [mover, Finset.mem_biUnion] at hx
  obtain ⟨q, _, hx⟩ := hx
  simp only [transGet, List.mem_toFinset, List.mem_map, List.mem_filter] at hx
  obtain ⟨t, ⟨ht, _⟩, hx⟩ := hx
  simp only [destsOf, List.mem_toFinset, List.mem_map]
  exact ⟨t, ht, hx⟩

theorem nfaStep_sub_dests (rel : List Transicao) (S : Finset String) (a : String) :
    nfaStep rel S a ⊆ destsOf rel := by
  rw [nfaStep]
  refine Finset.Subset.trans (fecho_vazio_sub_union _ rel) ?_
  intro x hx
  rcases Finset.mem_union.mp hx with hx | hx
  · exact mover_sub_dests S a rel hx
  · exact hx

/-! ## Shape lemmas for one symbol step of the construction -/

theorem processSymbol_of_empty {afnd : AFND} {atual : Finset String}
    {st : BuildSt} {a : String} (h : nfaStep afnd.transicoes atual a = ∅) :
    processSymbol afnd atual st a = st := by
  unfold processSymbol
  rw [show fecho_vazio (mover atual a afnd.transicoes) afnd.transicoes =
    nfaStep afnd.transicoes atual a from rfl]
  simp [h]

theorem processSymbol_of_known {afnd : AFND} {atual : Finset String}
    {st : BuildSt} {a : String} (h1 : nfaStep afnd.transicoes atual a ≠ ∅)
    (h2 : nfaStep afnd.transicoes atual a ∈ st.explorados) :
    processSymbol afnd atual st a =
      { st with
        trans := dictInsert st.trans (mapaGet st.mapa atual, a)
          (mapaGet st.mapa (nfaStep afnd.transicoes atual a)) } := by
  unfold processSymbol
  rw [show fecho_vazio (mover atual a afnd.transicoes) afnd.transicoes =
    nfaStep afnd.transicoes atual a from rfl]
  simp [h1, h2]

theorem processSymbol_of_new {afnd : AFND} {atual : Finset String}
    {st : BuildSt} {a : String} (h1 : nfaStep afnd.transicoes atual a ≠ ∅)
    (h2 : nfaStep afnd.transicoes atual a ∉ st.explorados) :
    processSymbol afnd atual st a =
      { fila := st.fila ++ [nfaStep afnd.transicoes atual a]
        explorados := insert (nfaStep afnd.transicoes atual a) st.explorados
        mapa := dictInsert st.mapa (nfaStep afnd.transicoes atual a)
          (gerar_nome_estado (nfaStep afnd.transicoes atual a))
        trans := dictInsert st.trans
          (mapaGet (dictInsert st.mapa (nfaStep afnd.transicoes atual a)
            (gerar_nome_estado (nfaStep afnd.transicoes atual a))) atual, a)
          (mapaGet (dictInsert st.mapa (nfaStep afnd.transicoes atual a)
            (gerar_nome_estado (nfaStep afnd.transicoes atual a)))
            (nfaStep afnd.transicoes atual a))
        finais := st.finais } := by
  unfold processSymbol
  rw [show fecho_vazio (mover atual a afnd.transicoes) afnd.transicoes =
    nfaStep afnd.transicoes atual a from rfl]
  simp [h1, h2]

theorem mem_keys_dictInsert_self {α β : Type} [DecidableEq α]
    (m : List (α × β)) (k : α) (v : β) :
    k ∈ (dictInsert m k v).map Prod.fst := by
  induction m with
  | nil => simp [dictInsert]
  | cons p resto ih =>
    by_cases h : p.1 = k
    · simp [dictInsert, h]
    · simp only [dictInsert, if_neg h, List.map_cons, List.mem_cons]
      exact Or.inr ih

theorem mem_keys_dictInsert_of_mem {α β : Type} [DecidableEq α]
    {m : List (α × β)} {x : α} (k : α) (v : β) (h : x ∈ m.map Prod.fst) :
    x ∈ (dictInsert m k v).map Prod.fst := by
  induction m with
  | nil => simp at h
  | cons p resto ih =>
    rw [List.map_cons] at h
    by_cases hpk : p.1 = k
    · simp only [dictInsert, if_pos hpk, List.map_cons, List.mem_cons]
      rcases List.mem_cons.mp h with h2 | h2
      · exact Or.inl (by rw [h2, hpk])
      · exact Or.inr h2
    · simp only [dictInsert, if_neg hpk, List.map_cons, List.mem_cons]
      rcases List.mem_cons.mp h with h2 | h2
      · exact Or.inl h2
      · exact Or.inr (ih h2)

theorem processSymbol_explorados_mono (afnd : AFND) (atual : Finset String)
    (st : BuildSt) (a : String) :
    st.explorados ⊆ (processSymbol afnd atual st a).explorados := by
  by_cases h1 : nfaStep afnd.transicoes atual a = ∅
  · rw [processSymbol_of_empty h1]
  · by_cases h2 : nfaStep afnd.transicoes atual a ∈ st.explorados
    · rw [processSymbol_of_known h1 h2]
    · rw [processSymbol_of_new h1 h2]
      exact Finset.subset_insert _ _

theorem processSymbol_fila_mono (afnd : AFND) (atual : Finset String)
    (st : BuildSt) (a : String) :
    ∀ x ∈ st.fila, x ∈ (processSymbol afnd atual st a).fila := by
  intro x hx
  by_cases h1 : nfaStep afnd.transicoes atual a = ∅
  · rwa [processSymbol_of_empty h1]
  · by_cases h2 : nfaStep afnd.transicoes atual a ∈ st.explorados
    · rwa [processSymbol_of_known h1 h2]
    · rw [processSymbol_of_new h1 h2]
      exact List.mem_append_left _ hx

theorem processSymbol_fila_sub (afnd : AFND) (atual : Finset String)
    (st : BuildSt) (a : String) :
    ∀ x ∈ (processSymbol afnd atual st a).fila,
      x ∈ st.fila ∨ x = nfaStep afnd.transicoes atual a := by
  intro x hx
  by_cases h1 : nfaStep afnd.transicoes atual a = ∅
  · rw [processSymbol_of_empty h1] at hx
    exact Or.inl hx
  · by_cases h2 : nfaStep afnd.transicoes atual a ∈ st.explorados
    · rw [processSymbol_of_known h1 h2] at hx
      exact Or.inl hx
    · rw [processSymbol_of_new h1 h2] at hx
      rcases List.mem_append.mp hx with h3 | h3
      · exact Or.inl h3
      · exact Or.inr (List.mem_singleton.mp h3)

theorem processSymbol_new_in_fila (afnd : AFND) (atual : Finset String)
    (st : BuildSt) (a : String) :
    ∀ S ∈ (processSymbol afnd atual st a).explorados,
      S ∈ st.explorados ∨ S ∈ (processSymbol afnd atual st a).fila := by
  intro S hS
  by_cases h1 : nfaStep afnd.transicoes atual a = ∅
  · rw [processSymbol_of_empty h1] at hS
    exact Or.inl hS
  · by_cases h2 : nfaStep afnd.transicoes atual a ∈ st.explorados
    · rw [processSymbol_of_known h1 h2] at hS
      exact Or.inl hS
    · rw [processSymbol_of_new h1 h2] at hS ⊢
      rcases Finset.mem_insert.mp hS with h3 | h3
      · exact Or.inr (List.mem_append_right _ (h3 ▸ List.mem_singleton_self _))
      · exact Or.inl h3

theorem processSymbol_inv1 (afnd : AFND) (atual : Finset String) (st : BuildSt)
    (a : String) (hI : Inv1 afnd st) (hat : atual ∈ st.explorados)
    (ha : a ∈ afnd.alfabeto) :
    Inv1 afnd (processSymbol afnd atual st a) := by
  by_cases h1 : nfaStep afnd.transicoes atual a = ∅
  · rwa [processSymbol_of_empty h1]
  · by_cases h2 : nfaStep afnd.transicoes atual a ∈ st.explorados
    · rw [processSymbol_of_known h1 h2]
      have hmA : mapaGet st.mapa atual = gerar_nome_estado atual :=
        mapaGet_eq_gerar _ hI.vals _ ((hI.keysExpl atual).mp hat)
      have hmP : mapaGet st.mapa (nfaStep afnd.transicoes atual a) =
          gerar_nome_estado (nfaStep afnd.transicoes atual a) :=
        mapaGet_eq_gerar _ hI.vals _ ((hI.keysExpl _).mp h2)
      exact
        { keysNodup := hI.keysNodup
          keysExpl := hI.keysExpl
          vals := hI.vals
          bounds := hI.bounds
          filaSub := hI.filaSub
          filaNodup := hI.filaNodup
          transChar := by
            intro e he
            rcases mem_dictInsert he with h | h
            · exact ⟨atual, a, hat, ha, h1, h2, by rw [h, hmA, hmP]⟩
            · exact hI.transChar e h
          transNodup := keys_dictInsert_nodup _ _ hI.transNodup
          finaisSub := hI.finaisSub
          finaisDone := hI.finaisDone
          inicialMem := hI.inicialMem }
    · rw [processSymbol_of_new h1 h2]
      have hPkeys : nfaStep afnd.transicoes atual a ∉ st.mapa.map Prod.fst :=
        fun hh => h2 ((hI.keysExpl _).mpr hh)
      have hPU : nfaStep afnd.transicoes atual a ⊆ universo afnd :=
        Finset.Subset.trans (nfaStep_sub_dests _ _ _) (Finset.subset_insert _ _)
      have vals2 : ∀ p ∈ dictInsert st.mapa (nfaStep afnd.transicoes atual a)
          (gerar_nome_estado (nfaStep afnd.transicoes atual a)),
          p.2 = gerar_nome_estado p.1 := by
        intro p hp
        rcases mem_dictInsert hp with h | h
        · rw [h]
        · exact hI.vals p h
      have hmA : mapaGet (dictInsert st.mapa (nfaStep afnd.transicoes atual a)
          (gerar_nome_estado (nfaStep afnd.transicoes atual a))) atual =
          gerar_nome_estado atual :=
        mapaGet_eq_gerar _ vals2 _
          (mem_keys_dictInsert_of_mem _ _ ((hI.keysExpl atual).mp hat))
      have hmP : mapaGet (dictInsert st.mapa (nfaStep afnd.transicoes atual a)
          (gerar_nome_estado (nfaStep afnd.transicoes atual a)))
          (nfaStep afnd.transicoes atual a) =
          gerar_nome_estado (nfaStep afnd.transicoes atual a) :=
        mapaGet_eq_gerar _ vals2 _ (mem_keys_dictInsert_self _ _ _)
      exact
        { keysNodup := keys_dictInsert_nodup _ _ hI.keysNodup
          keysExpl := by
            intro S
            constructor
            · intro hS
              rcases Finset.mem_insert.mp hS with h3 | h3
              · exact h3 ▸ mem_keys_dictInsert_self _ _ _
              · exact mem_keys_dictInsert_of_mem _ _ ((hI.keysExpl S).mp h3)
            · intro hS
              rcases keys_dictInsert hS with h3 | h3
              · exact h3 ▸ Finset.mem_insert_self _ _
              · exact Finset.mem_insert_of_mem ((hI.keysExpl S).mpr h3)
          vals := vals2
          bounds := by
            intro S hS
            rcases Finset.mem_insert.mp hS with h3 | h3
            · exact h3 ▸ ⟨h1, hPU⟩
            · exact hI.bounds S h3
          filaSub := by
            intro S hS
            rcases List.mem_append.mp hS with h3 | h3
            · exact Finset.mem_insert_of_mem (hI.filaSub S h3)
            · exact (List.mem_singleton.mp h3) ▸ Finset.mem_insert_self _ _
          filaNodup := by
            rw [List.nodup_append]
            refine ⟨hI.filaNodup, List.nodup_singleton _, ?_⟩
            intro x hx hx2
            rw [List.mem_singleton.mp hx2] at hx
            exact h2 (hI.filaSub _ hx)
          transChar := by
            intro e he
            rcases mem_dictInsert he with h | h
            · refine ⟨atual, a, Finset.mem_insert_of_mem hat, ha, h1,
                Finset.mem_insert_self _ _, ?_⟩
              rw [h, hmA, hmP]
            · obtain ⟨S, b, hS, hb, hne, hstep, hee⟩ := hI.transChar e h
              exact ⟨S, b, Finset.mem_insert_of_mem hS, hb, hne,
                Finset.mem_insert_of_mem hstep, hee⟩
          transNodup := keys_dictInsert_nodup _ _ hI.transNodup
          finaisSub := by
            intro S hS
            exact ⟨Finset.mem_insert_of_mem (hI.finaisSub S hS).1,
              (hI.finaisSub S hS).2⟩
          finaisDone := by
            intro S hS hSf hint
            have hPf : nfaStep afnd.transicoes atual a ∈
                st.fila ++ [nfaStep afnd.transicoes atual a] :=
              List.mem_append_right _ (List.mem_singleton_self _)
            have hSP : S ≠ nfaStep afnd.transicoes atual a := by
              intro hh
              exact hSf (hh ▸ hPf)
            have hSe : S ∈ st.explorados :=
              (Finset.mem_insert.mp hS).resolve_left hSP
            exact hI.finaisDone S hSe
              (fun hh => hSf (List.mem_append_left _ hh)) hint
          inicialMem := Finset.mem_insert_of_mem hI.inicialMem }

theorem processSymbol_not_fila (afnd : AFND) (atual : Finset String)
    (st : BuildSt) (a : String) (hat : atual ∈ st.explorados)
    (hfi : atual ∉ st.fila) : atual ∉ (processSymbol afnd atual st a).fila := by
  intro hh
  rcases processSymbol_fila_sub afnd atual st a atual hh with h | h
  · exact hfi h
  · by_cases h1 : nfaStep afnd.transicoes atual a = ∅
    · rw [processSymbol_of_empty h1] at hh
      exact hfi hh
    · by_cases h2 : nfaStep afnd.transicoes atual a ∈ st.explorados
      · rw [processSymbol_of_known h1 h2] at hh
        exact hfi hh
      · exact h2 (h ▸ hat)

theorem foldProcess_inv1 (afnd : AFND) (atual : Finset String) (L : List String)
    (hL : ∀ x ∈ L, x ∈ afnd.alfabeto) (st : BuildSt) (hI : Inv1 afnd st)
    (hat : atual ∈ st.explorados) :
    Inv1 afnd (L.foldl (processSymbol afnd atual) st) ∧
      atual ∈ (L.foldl (processSymbol afnd atual) st).explorados := by
  induction L generalizing st with
  | nil => exact ⟨hI, hat⟩
  | cons a L ih =>
    rw [List.foldl_cons]
    exact ih (fun x hx => hL x (List.mem_cons_of_mem _ hx)) _
      (processSymbol_inv1 afnd atual st a hI hat (hL a (List.mem_cons_self _ _)))
      (processSymbol_explorados_mono afnd atual st a hat)

theorem foldProcess_explorados_mono (afnd : AFND) (atual : Finset String)
    (L : List String) (st : BuildSt) :
    st.explorados ⊆ (L.foldl (processSymbol afnd atual) st).explorados := by
  induction L generalizing st with
  | nil => exact Finset.Subset.refl _
  | cons a L ih =>
    rw [List.foldl_cons]
    exact Finset.Subset.trans (processSymbol_explorados_mono afnd atual st a) (ih _)

theorem foldProcess_fila_mono (afnd : AFND) (atual : Finset String)
    (L : List String) (st : BuildSt) :
    ∀ x ∈ st.fila, x ∈ (L.foldl (processSymbol afnd atual) st).fila := by
  induction L generalizing st with
  | nil => exact fun x hx => hx
  | cons a L ih =>
    intro x hx
    rw [List.foldl_cons]
    exact ih _ x (processSymbol_fila_mono afnd atual st a x hx)

theorem foldProcess_not_fila (afnd : AFND) (atual : Finset String)
    (L : List String) (st : BuildSt) (hat : atual ∈ st.explorados)
    (hfi : atual ∉ st.fila) :
    atual ∉ (L.foldl (processSymbol afnd atual) st).fila := by
  induction L generalizing st with
  | nil => exact hfi
  | cons a L ih =>
    rw [List.foldl_cons]
    exact ih _ (processSymbol_explorados_mono afnd atual st a hat)
      (processSymbol_not_fila afnd atual st a hat hfi)

theorem foldProcess_new_in_fila (afnd : AFND) (atual : Finset String)
    (L : List String) (st : BuildSt) :
    ∀ S ∈ (L.foldl (processSymbol afnd atual) st).explorados,
      S ∈ st.explorados ∨ S ∈ (L.foldl (processSymbol afnd atual) st).fila := by
  induction L generalizing st with
  | nil => exact fun S hS => Or.inl hS
  | cons a L ih =>
    intro S hS
    rw [List.foldl_cons] at hS ⊢
    rcases ih _ S hS with h | h
    · rcases processSymbol_new_in_fila afnd atual st a S h with h2 | h2
      · exact Or.inl h2
      · exact Or.inr (foldProcess_fila_mono afnd atual L _ S h2)
    · exact Or.inr h

/-! ## Loop equations and invariant propagation -/

theorem converterLoop_zero (afnd : AFND) (st : BuildSt) :
    converterLoop afnd 0 st = st := by
  obtain ⟨fila, e, m, t, f⟩ := st
  cases fila <;> rfl

theorem converterLoop_succ_nil (afnd : AFND) (n : Nat) (e) (m) (t) (f) :
    converterLoop afnd (n + 1) ⟨[], e, m, t, f⟩ = ⟨[], e, m, t, f⟩ := rfl

theorem converterLoop_succ_cons (afnd : AFND) (n : Nat) (atual : Finset String)
    (resto : List (Finset String)) (e) (m) (t) (f) :
    converterLoop afnd (n + 1) ⟨atual :: resto, e, m, t, f⟩ =
      converterLoop afnd n (converterPasso afnd atual ⟨resto, e, m, t, f⟩) := rfl

theorem converterPasso_inv1 (afnd : AFND) (atual : Finset String)
    (resto : List (Finset String)) (e) (m) (t) (f)
    (hI : Inv1 afnd ⟨atual :: resto, e, m, t, f⟩) :
    Inv1 afnd (converterPasso afnd atual ⟨resto, e, m, t, f⟩) := by
  have hat : atual ∈ e := hI.filaSub atual (List.mem_cons_self _ _)
  have hnr : atual ∉ resto := (List.nodup_cons.mp hI.filaNodup).1
  have hI0 : ∀ f2 : Finset (Finset String),
      (∀ S ∈ f2, S ∈ e ∧ S ∩ afnd.estados_finais ≠ ∅) →
      (∀ S ∈ e, S ∉ resto → S ∩ afnd.estados_finais ≠ ∅ → S ∈ f2) →
      Inv1 afnd ⟨resto, e, m, t, f2⟩ := by
    intro f2 hsub hdone
    exact
      { keysNodup := hI.keysNodup
        keysExpl := hI.keysExpl
        vals := hI.vals
        bounds := hI.bounds
        filaSub := fun S hS => hI.filaSub S (List.mem_cons_of_mem _ hS)
        filaNodup := (List.nodup_cons.mp hI.filaNodup).2
        transChar := hI.transChar
        transNodup := hI.transNodup
        finaisSub := hsub
        finaisDone := hdone
        inicialMem := hI.inicialMem }
  unfold converterPasso
  by_cases hcond : atual ∩ afnd.estados_finais ≠ ∅
  · rw [if_pos hcond]
    refine (foldProcess_inv1 afnd atual afnd.alfabeto (fun x hx => hx) _ ?_ hat).1
    refine hI0 (insert atual f) ?_ ?_
    · intro S hS
      rcases Finset.mem_insert.mp hS with h | h
      · exact h ▸ ⟨hat, hcond⟩
      · exact hI.finaisSub S h
    · intro S hS hSr hint
      by_cases hSa : S = atual
      · exact hSa ▸ Finset.mem_insert_self _ _
      · refine Finset.mem_insert_of_mem (hI.finaisDone S hS ?_ hint)
        intro hh
        rcases List.mem_cons.mp hh with h2 | h2
        · exact hSa h2
        · exact hSr h2
  · rw [if_neg hcond]
    refine (foldProcess_inv1 afnd atual afnd.alfabeto (fun x hx => hx) _ ?_ hat).1
    refine hI0 f (fun S hS => hI.finaisSub S hS) ?_
    intro S hS hSr hint
    by_cases hSa : S = atual
    · exact absurd (hSa ▸ hint) hcond
    · refine hI.finaisDone S hS ?_ hint
      intro hh
      rcases List.mem_cons.mp hh with h2 | h2
      · exact hSa h2
      · exact hSr h2

theorem converterLoop_inv1 (afnd : AFND) (fuel : Nat) (st : BuildSt)
    (hI : Inv1 afnd st) : Inv1 afnd (converterLoop afnd fuel st) := by
  induction fuel generalizing st with
  | zero => rwa [converterLoop_zero]
  | succ n ih =>
    obtain ⟨fila, e, m, t, f⟩ := st
    cases fila with
    | nil => rwa [converterLoop_succ_nil]
    | cons atual resto =>
      rw [converterLoop_succ_cons]
      exact ih _ (converterPasso_inv1 afnd atual resto e m t f hI)

theorem converter_inicial_inv1 (afnd : AFND) :
    Inv1 afnd
      ⟨[fecho_vazio {afnd.estado_inicial} afnd.transicoes],
        {fecho_vazio {afnd.estado_inicial} afnd.transicoes},
        [(fecho_vazio {afnd.estado_inicial} afnd.transicoes,
          gerar_nome_estado (fecho_vazio {afnd.estado_inicial} afnd.transicoes))],
        [], ∅⟩ := by
  have hmem : afnd.estado_inicial ∈
      fecho_vazio {afnd.estado_inicial} afnd.transicoes :=
    fecho_vazio_subset _ _ (Finset.mem_singleton_self _)
  have hU : fecho_vazio {afnd.estado_inicial} afnd.transicoes ⊆ universo afnd := by
    refine Finset.Subset.trans (fecho_vazio_sub_union _ _) ?_
    rw [universo, Finset.insert_eq]
  exact
    { keysNodup := by simp
      keysExpl := by intro S; simp
      vals := by intro p hp; rw [List.mem_singleton.mp hp]
      bounds := by
        intro S hS
        rw [Finset.mem_singleton.mp hS]
        exact ⟨Finset.ne_empty_of_mem hmem, hU⟩
      filaSub := by intro S hS; simpa using hS
      filaNodup := List.nodup_singleton _
      transChar := by intro e he; simp at he
      transNodup := by simp
      finaisSub := by intro S hS; simp at hS
      finaisDone := by
        intro S hS hSf
        rw [Finset.mem_singleton.mp hS] at hSf
        exact absurd (List.mem_singleton_self _) hSf
      inicialMem := Finset.mem_singleton_self _ }

theorem converter_build_inv1 (afnd : AFND) : Inv1 afnd (converter_build afnd) := by
  unfold converter_build
  exact converterLoop_inv1 afnd _ _ (converter_inicial_inv1 afnd)

/-! ## Termination of the exploration loop -/

theorem card_sdiff_insert_aux {α : Type} [DecidableEq α] {U s : Finset α}
    {x : α} (hx : x ∈ U) (hxs : x ∉ s) :
    (U \ insert x s).card + 1 = (U \ s).card := by
  have hdm : x ∈ U \ s := Finset.mem_sdiff.mpr ⟨hx, hxs⟩
  have hins : U \ insert x s = (U \ s).erase x := by
    ext y
    simp only [Finset.mem_sdiff, Finset.mem_insert, Finset.mem_erase]
    constructor
    · rintro ⟨hy, hy2⟩
      exact ⟨fun hh => hy2 (Or.inl hh), hy, fun hh => hy2 (Or.inr hh)⟩
    · rintro ⟨hy1, hy2, hy3⟩
      exact ⟨hy2, fun hh => hh.elim hy1 hy3⟩
  have hpos : 1 ≤ (U \ s).card := Finset.card_pos.mpr ⟨x, hdm⟩
  rw [hins, Finset.card_erase_of_mem hdm]
  omega

theorem processSymbol_measure (afnd : AFND) (atual : Finset String)
    (st : BuildSt) (a : String) :
    ((universo afnd).powerset \ (processSymbol afnd atual st a).explorados).card +
      (processSymbol afnd atual st a).fila.length ≤
    ((universo afnd).powerset \ st.explorados).card + st.fila.length := by
  by_cases h1 : nfaStep afnd.transicoes atual a = ∅
  · rw [processSymbol_of_empty h1]
  · by_cases h2 : nfaStep afnd.transicoes atual a ∈ st.explorados
    · rw [processSymbol_of_known h1 h2]
    · rw [processSymbol_of_new h1 h2]
      have hPU : nfaStep afnd.transicoes atual a ∈ (universo afnd).powerset :=
        Finset.mem_powerset.mpr
          (Finset.Subset.trans (nfaStep_sub_dests _ _ _) (Finset.subset_insert _ _))
      have := card_sdiff_insert_aux hPU h2
      simp only [List.length_append, List.length_singleton]
      omega

theorem foldProcess_measure (afnd : AFND) (atual : Finset String)
    (L : List String) (st : BuildSt) :
    ((universo afnd).powerset \
        (L.foldl (processSymbol afnd atual) st).explorados).card +
      (L.foldl (processSymbol afnd atual) st).fila.length ≤
    ((universo afnd).powerset \ st.explorados).card + st.fila.length := by
  induction L generalizing st with
  | nil => exact le_refl _
  | cons a L ih =>
    rw [List.foldl_cons]
    exact le_trans (ih _) (processSymbol_measure afnd atual st a)

theorem converterPasso_measure (afnd : AFND) (atual : Finset String)
    (st : BuildSt) :
    ((universo afnd).powerset \ (converterPasso afnd atual st).explorados).card +
      (converterPasso afnd atual st).fila.length ≤
    ((universo afnd).powerset \ st.explorados).card + st.fila.length := by
  unfold converterPasso
  by_cases hcond : atual ∩ afnd.estados_finais ≠ ∅
  · rw [if_pos hcond]
    exact foldProcess_measure afnd atual afnd.alfabeto _
  · rw [if_neg hcond]
    exact foldProcess_measure afnd atual afnd.alfabeto _

theorem converterLoop_drain (afnd : AFND) (fuel : Nat) (st : BuildSt)
    (h : ((universo afnd).powerset \ st.explorados).card + st.fila.length ≤ fuel) :
    (converterLoop afnd fuel st).fila = [] := by
  induction fuel generalizing st with
  | zero =>
    rw [converterLoop_zero]
    cases hf : st.fila with
    | nil => rfl
    | cons q resto =>
      rw [hf] at h
      simp at h
  | succ n ih =>
    obtain ⟨fila, e, m, t, f⟩ := st
    cases fila with
    | nil => rw [converterLoop_succ_nil]
    | cons atual resto =>
      rw [converterLoop_succ_cons]
      refine ih _ ?_
      have := converterPasso_measure afnd atual ⟨resto, e, m, t, f⟩
      dsimp only at this
      simp only [List.length_cons] at h
      omega

theorem converter_build_fila (afnd : AFND) : (converter_build afnd).fila = [] := by
  unfold converter_build
  apply converterLoop_drain
  have hS0 : fecho_vazio {afnd.estado_inicial} afnd.transicoes ∈
      (universo afnd).powerset := by
    rw [Finset.mem_powerset]
    refine Finset.Subset.trans (fecho_vazio_sub_union _ _) ?_
    rw [universo, Finset.insert_eq]
  have h1 : ({fecho_vazio {afnd.estado_inicial} afnd.transicoes} :
      Finset (Finset String)) ⊆ (universo afnd).powerset := by
    intro x hx
    rw [Finset.mem_singleton.mp hx]
    exact hS0
  have h2 := Finset.card_sdiff h1
  have h3 : 1 ≤ ((universo afnd).powerset).card :=
    Finset.card_pos.mpr ⟨_, hS0⟩
  rw [Finset.card_powerset] at h2 h3
  simp only [List.length_singleton, Finset.card_singleton] at h2 ⊢
  omega

/-! ## Completeness of the recorded transitions (under collision-free names) -/

theorem processSymbol_done (afnd : AFND) (atual : Finset String) (st : BuildSt)
    (a : String) (hinj : NomesInj afnd) (hI : Inv1 afnd st)
    (hat : atual ∈ st.explorados) :
    (∀ S b, S ∈ st.explorados → DoneAt afnd st.explorados st.trans S b →
      DoneAt afnd (processSymbol afnd atual st a).explorados
        (processSymbol afnd atual st a).trans S b) ∧
    DoneAt afnd (processSymbol afnd atual st a).explorados
      (processSymbol afnd atual st a).trans atual a := by
  by_cases h1 : nfaStep afnd.transicoes atual a = ∅
  · rw [processSymbol_of_empty h1]
    exact ⟨fun S b _ hD => hD, fun hne => absurd h1 hne⟩
  · have hatU : atual ⊆ universo afnd := (hI.bounds atual hat).2
    by_cases h2 : nfaStep afnd.transicoes atual a ∈ st.explorados
    · rw [processSymbol_of_known h1 h2]
      have hmA : mapaGet st.mapa atual = gerar_nome_estado atual :=
        mapaGet_eq_gerar _ hI.vals _ ((hI.keysExpl atual).mp hat)
      have hmP : mapaGet st.mapa (nfaStep afnd.transicoes atual a) =
          gerar_nome_estado (nfaStep afnd.transicoes atual a) :=
        mapaGet_eq_gerar _ hI.vals _ ((hI.keysExpl _).mp h2)
      rw [hmA, hmP]
      constructor
      · intro S b hS hD hne
        obtain ⟨hmem, hlook⟩ := hD hne
        by_cases hk : ((gerar_nome_estado S, b) : String × String) =
            (gerar_nome_estado atual, a)
        · have hSA : S = atual :=
            hinj S atual (hI.bounds S hS).2 hatU (congrArg Prod.fst hk)
          have hba : b = a := congrArg Prod.snd hk
          subst hSA
          subst hba
          exact ⟨hmem, dictGet_dictInsert_self _ _ _⟩
        · exact ⟨hmem, by
            rw [dictGet_dictInsert_ne _ _ _ _ hk, hlook]⟩
      · intro _
        exact ⟨h2, dictGet_dictInsert_self _ _ _⟩
    · rw [processSymbol_of_new h1 h2]
      have vals2 : ∀ p ∈ dictInsert st.mapa (nfaStep afnd.transicoes atual a)
          (gerar_nome_estado (nfaStep afnd.transicoes atual a)),
          p.2 = gerar_nome_estado p.1 := by
        intro p hp
        rcases mem_dictInsert hp with h | h
        · rw [h]
        · exact hI.vals p h
      have hmA : mapaGet (dictInsert st.mapa (nfaStep afnd.transicoes atual a)
          (gerar_nome_estado (nfaStep afnd.transicoes atual a))) atual =
          gerar_nome_estado atual :=
        mapaGet_eq_gerar _ vals2 _
          (mem_keys_dictInsert_of_mem _ _ ((hI.keysExpl atual).mp hat))
      have hmP : mapaGet (dictInsert st.mapa (nfaStep afnd.transicoes atual a)
          (gerar_nome_estado (nfaStep afnd.transicoes atual a)))
          (nfaStep afnd.transicoes atual a) =
          gerar_nome_estado (nfaStep afnd.transicoes atual a) :=
        mapaGet_eq_gerar _ vals2 _ (mem_keys_dictInsert_self _ _ _)
      rw [hmA, hmP]
      constructor
      · intro S b hS hD hne
        obtain ⟨hmem, hlook⟩ := hD hne
        by_cases hk : ((gerar_nome_estado S, b) : String × String) =
            (gerar_nome_estado atual, a)
        · have hSA : S = atual :=
            hinj S atual (hI.bounds S hS).2 hatU (congrArg Prod.fst hk)
          have hba : b = a := congrArg Prod.snd hk
          subst hSA
          subst hba
          exact ⟨Finset.mem_insert_self _ _, dictGet_dictInsert_self _ _ _⟩
        · exact ⟨Finset.mem_insert_of_mem hmem, by
            rw [dictGet_dictInsert_ne _ _ _ _ hk, hlook]⟩
      · intro _
        exact ⟨Finset.mem_insert_self _ _, dictGet_dictInsert_self _ _ _⟩

theorem foldProcess_done (afnd : AFND) (atual : Finset String) (L : List String)
    (hL : ∀ x ∈ L, x ∈ afnd.alfabeto) (st : BuildSt) (hinj : NomesInj afnd)
    (hI : Inv1 afnd st) (hat : atual ∈ st.explorados) :
    (∀ S b, S ∈ st.explorados → DoneAt afnd st.explorados st.trans S b →
      DoneAt afnd (L.foldl (processSymbol afnd atual) st).explorados
        (L.foldl (processSymbol afnd atual) st).trans S b) ∧
    (∀ a ∈ L, DoneAt afnd (L.foldl (processSymbol afnd atual) st).explorados
      (L.foldl (processSymbol afnd atual) st).trans atual a) := by
  induction L generalizing st with
  | nil => exact ⟨fun S b _ hD => hD, fun a ha => absurd ha (by simp)⟩
  | cons a L ih =>
    have ha : a ∈ afnd.alfabeto := hL a (List.mem_cons_self _ _)
    have hI1 := processSymbol_inv1 afnd atual st a hI hat ha
    have hat1 := processSymbol_explorados_mono afnd atual st a hat
    have hPD := processSymbol_done afnd atual st a hinj hI hat
    have ihh := ih (fun x hx => hL x (List.mem_cons_of_mem _ hx)) _ hI1 hat1
    rw [List.foldl_cons]
    constructor
    · intro S b hS hD
      exact ihh.1 S b (processSymbol_explorados_mono afnd atual st a hS)
        (hPD.1 S b hS hD)
    · intro b hb
      rcases List.mem_cons.mp hb with h | h
      · subst h
        exact ihh.1 atual b hat1 hPD.2
      · exact ihh.2 b h

theorem inv1_drop_head (afnd : AFND) (atual : Finset String)
    (resto : List (Finset String)) (e) (m) (t) (f)
    (hI : Inv1 afnd ⟨atual :: resto, e, m, t, f⟩) (f2 : Finset (Finset String))
    (hsub : ∀ S ∈ f2, S ∈ e ∧ S ∩ afnd.estados_finais ≠ ∅)
    (hdone : ∀ S ∈ e, S ∉ resto → S ∩ afnd.estados_finais ≠ ∅ → S ∈ f2) :
    Inv1 afnd ⟨resto, e, m, t, f2⟩ :=
  { keysNodup := hI.keysNodup
    keysExpl := hI.keysExpl
    vals := hI.vals
    bounds := hI.bounds
    filaSub := fun S hS => hI.filaSub S (List.mem_cons_of_mem _ hS)
    filaNodup := (List.nodup_cons.mp hI.filaNodup).2
    transChar := hI.transChar
    transNodup := hI.transNodup
    finaisSub := hsub
    finaisDone := hdone
    inicialMem := hI.inicialMem }

theorem converterPasso_inv2 (afnd : AFND) (atual : Finset String)
    (resto : List (Finset String)) (e) (m) (t) (f) (hinj : NomesInj afnd)
    (hI : Inv1 afnd ⟨atual :: resto, e, m, t, f⟩)
    (h2 : Inv2 afnd ⟨atual :: resto, e, m, t, f⟩) :
    Inv2 afnd (converterPasso afnd atual ⟨resto, e, m, t, f⟩) := by
  have hat : atual ∈ e := hI.filaSub atual (List.mem_cons_self _ _)
  have hnr : atual ∉ resto := (List.nodup_cons.mp hI.filaNodup).1
  have main : ∀ f2 : Finset (Finset String),
      Inv1 afnd ⟨resto, e, m, t, f2⟩ →
      Inv2 afnd (afnd.alfabeto.foldl (processSymbol afnd atual)
        ⟨resto, e, m, t, f2⟩) := by
    intro f2 hI0
    have hFD := foldProcess_done afnd atual afnd.alfabeto (fun x hx => hx)
      ⟨resto, e, m, t, f2⟩ hinj hI0 hat
    intro S hS hSf a ha
    rcases foldProcess_new_in_fila afnd atual afnd.alfabeto
        ⟨resto, e, m, t, f2⟩ S hS with hSe | hSe
    · by_cases hSa : S = atual
      · subst hSa
        exact hFD.2 a ha
      · have hSr : S ∉ resto := fun hh =>
          hSf (foldProcess_fila_mono afnd atual afnd.alfabeto
            ⟨resto, e, m, t, f2⟩ S hh)
        have hSel : S ∉ atual :: resto := by
          intro hh
          rcases List.mem_cons.mp hh with h3 | h3
          · exact hSa h3
          · exact hSr h3
        exact hFD.1 S a hSe (h2 S hSe hSel a ha)
    · exact absurd hSe hSf
  unfold converterPasso
  by_cases hcond : atual ∩ afnd.estados_finais ≠ ∅
  · rw [if_pos hcond]
    refine main (insert atual f) (inv1_drop_head afnd atual resto e m t f hI _
      ?_ ?_)
    · intro S hS
      rcases Finset.mem_insert.mp hS with h | h
      · exact h ▸ ⟨hat, hcond⟩
      · exact hI.finaisSub S h
    · intro S hS hSr hint
      by_cases hSa : S = atual
      · exact hSa ▸ Finset.mem_insert_self _ _
      · refine Finset.mem_insert_of_mem (hI.finaisDone S hS ?_ hint)
        intro hh
        rcases List.mem_cons.mp hh with h3 | h3
        · exact hSa h3
        · exact hSr h3
  · rw [if_neg hcond]
    refine main f (inv1_drop_head afnd atual resto e m t f hI _
      (fun S hS => hI.finaisSub S hS) ?_)
    intro S hS hSr hint
    by_cases hSa : S = atual
    · exact absurd (hSa ▸ hint) hcond
    · refine hI.finaisDone S hS ?_ hint
      intro hh
      rcases List.mem_cons.mp hh with h3 | h3
      · exact hSa h3
      · exact hSr h3

theorem converterLoop_inv2 (afnd : AFND) (fuel : Nat) (st : BuildSt)
    (hinj : NomesInj afnd) (hI : Inv1 afnd st) (h2 : Inv2 afnd st) :
    Inv2 afnd (converterLoop afnd fuel st) := by
  induction fuel generalizing st with
  | zero => rwa [converterLoop_zero]
  | succ n ih =>
    obtain ⟨fila, e, m, t, f⟩ := st
    cases fila with
    | nil => rwa [converterLoop_succ_nil]
    | cons atual resto =>
      rw [converterLoop_succ_cons]
      exact ih _ (converterPasso_inv1 afnd atual resto e m t f hI)
        (converterPasso_inv2 afnd atual resto e m t f hinj hI h2)

theorem converter_build_inv2 (afnd : AFND) (hinj : NomesInj afnd) :
    Inv2 afnd (converter_build afnd) := by
  unfold converter_build
  apply converterLoop_inv2 afnd _ _ hinj (converter_inicial_inv1 afnd)
  intro S hS hSf a _
  rw [Finset.mem_singleton.mp hS] at hSf
  exact absurd (List.mem_singleton_self _) hSf

/-! ## The produced AFD, field by field -/

theorem converter_alfabeto (afnd : AFND) :
    (converter_afnd_para_afd afnd).alfabeto = afnd.alfabeto := rfl

theorem converter_transicoes (afnd : AFND) :
    (converter_afnd_para_afd afnd).transicoes = (converter_build afnd).trans := rfl

theorem converter_inicial (afnd : AFND) :
    (converter_afnd_para_afd afnd).estado_inicial =
      mapaGet (converter_build afnd).mapa
        (fecho_vazio {afnd.estado_inicial} afnd.transicoes) := rfl

theorem converter_finais (afnd : AFND) :
    (converter_afnd_para_afd afnd).estados_finais =
      (converter_build afnd).finais.image
        (fun S => mapaGet (converter_build afnd).mapa S) := rfl

theorem build_name (afnd : AFND) (S : Finset String)
    (hS : S ∈ (converter_build afnd).explorados) :
    mapaGet (converter_build afnd).mapa S = gerar_nome_estado S :=
  mapaGet_eq_gerar _ (converter_build_inv1 afnd).vals _
    (((converter_build_inv1 afnd).keysExpl S).mp hS)

theorem build_final_none (afnd : AFND) (hinj : NomesInj afnd)
    (S : Finset String) (hSU : S ⊆ universo afnd) (a : String)
    (he : nfaStep afnd.transicoes S a = ∅) :
    dictGet (converter_build afnd).trans (gerar_nome_estado S, a) = none := by
  cases hlook : dictGet (converter_build afnd).trans (gerar_nome_estado S, a) with
  | none => rfl
  | some v =>
    exfalso
    obtain ⟨S', a', hS', _, hne', _, he'⟩ :=
      (converter_build_inv1 afnd).transChar _ (dictGet_mem hlook)
    have hfst : (gerar_nome_estado S, a) = (gerar_nome_estado S', a') :=
      congrArg Prod.fst he'
    have hSS : S' = S :=
      hinj S' S ((converter_build_inv1 afnd).bounds S' hS').2 hSU
        (congrArg Prod.fst hfst).symm
    have haa : a' = a := (congrArg Prod.snd hfst).symm
    rw [hSS, haa] at hne'
    exact hne' he

theorem build_final_iff (afnd : AFND) (hinj : NomesInj afnd) (S : Finset String)
    (hS : S ∈ (converter_build afnd).explorados) :
    gerar_nome_estado S ∈ (converter_afnd_para_afd afnd).estados_finais ↔
      S ∩ afnd.estados_finais ≠ ∅ := by
  rw [converter_finais]
  constructor
  · intro h
    rw [Finset.mem_image] at h
    obtain ⟨S', hS', hname⟩ := h
    have hS'e : S' ∈ (converter_build afnd).explorados :=
      ((converter_build_inv1 afnd).finaisSub S' hS').1
    rw [build_name _ _ hS'e] at hname
    have hSS : S' = S :=
      hinj S' S ((converter_build_inv1 afnd).bounds S' hS'e).2
        ((converter_build_inv1 afnd).bounds S hS).2 hname
    rw [hSS] at hS'
    exact ((converter_build_inv1 afnd).finaisSub S hS').2
  · intro h
    refine Finset.mem_image.mpr ⟨S, ?_, build_name _ _ hS⟩
    refine (converter_build_inv1 afnd).finaisDone S hS ?_ h
    rw [converter_build_fila]
    exact List.not_mem_nil _

theorem foldl_nfaStep_empty (rel : List Transicao) (w : List Char) :
    w.foldl (fun T c => nfaStep rel T (String.singleton c)) ∅ = ∅ := by
  induction w with
  | nil => rfl
  | cons c w ih =>
    rw [List.foldl_cons, nfaStep_empty, ih]

theorem build_sim (afnd : AFND) (hinj : NomesInj afnd) :
    ∀ (w : List Char) (S : Finset String),
      S ∈ (converter_build afnd).explorados →
      (∀ c ∈ w, String.singleton c ∈ afnd.alfabeto) →
      (simular (converter_afnd_para_afd afnd) (gerar_nome_estado S) w = true ↔
        (w.foldl (fun T c => nfaStep afnd.transicoes T (String.singleton c)) S) ∩
          afnd.estados_finais ≠ ∅) := by
  intro w
  induction w with
  | nil =>
    intro S hS _
    rw [List.foldl_nil]
    rw [show simular (converter_afnd_para_afd afnd) (gerar_nome_estado S) [] =
      decide (gerar_nome_estado S ∈
        (converter_afnd_para_afd afnd).estados_finais) from rfl]
    rw [decide_eq_true_eq]
    exact build_final_iff afnd hinj S hS
  | cons c w ih =>
    intro S hS hw
    have hc : String.singleton c ∈ afnd.alfabeto := hw c (List.mem_cons_self _ _)
    have hc2 : ¬ String.singleton c ∉ (converter_afnd_para_afd afnd).alfabeto := by
      rw [converter_alfabeto]
      exact not_not_intro hc
    rw [List.foldl_cons]
    by_cases hP : nfaStep afnd.transicoes S (String.singleton c) = ∅
    · have hlook := build_final_none afnd hinj S
        ((converter_build_inv1 afnd).bounds S hS).2 (String.singleton c) hP
      have h1 : simular (converter_afnd_para_afd afnd) (gerar_nome_estado S)
          (c :: w) = false := by
        rw [simular, if_neg hc2, converter_transicoes, hlook]
      rw [h1, hP, foldl_nfaStep_empty]
      simp
    · have hnotfila : S ∉ (converter_build afnd).fila := by
        rw [converter_build_fila]
        exact List.not_mem_nil _
      obtain ⟨hstep, hlook⟩ := converter_build_inv2 afnd hinj S hS hnotfila
        (String.singleton c) hc hP
      have h1 : simular (converter_afnd_para_afd afnd) (gerar_nome_estado S)
          (c :: w) = simular (converter_afnd_para_afd afnd)
            (gerar_nome_estado (nfaStep afnd.transicoes S (String.singleton c)))
            w := by
        rw [simular, if_neg hc2, converter_transicoes, hlook]
      rw [h1]
      exact ih _ hstep fun c2 hc2 => hw c2 (List.mem_cons_of_mem _ hc2)

theorem nomes_inj_of_len1 (afnd : AFND)
    (h1 : ∀ s ∈ universo afnd, s.length = 1) : NomesInj afnd :=
  fun _ _ hS hT h =>
    gerar_nome_estado_inj (fun s hs => h1 s (hS hs)) (fun s hs => h1 s (hT hs)) h

theorem converter_preserva (afnd : AFND) (hinj : NomesInj afnd) (w : List Char)
    (hw : ∀ c ∈ w, String.singleton c ∈ afnd.alfabeto) :
    reconhecerPalavra (converter_afnd_para_afd afnd) w = true ↔ nfaAceita afnd w := by
  have hS0 : fecho_vazio {afnd.estado_inicial} afnd.transicoes ∈
      (converter_build afnd).explorados := (converter_build_inv1 afnd).inicialMem
  have hini : (converter_afnd_para_afd afnd).estado_inicial =
      gerar_nome_estado (fecho_vazio {afnd.estado_inicial} afnd.transicoes) := by
    rw [converter_inicial, build_name _ _ hS0]
  unfold nfaAceita nfaRun
  cases w with
  | nil =>
    rw [show reconhecerPalavra (converter_afnd_para_afd afnd) [] =
      decide ((converter_afnd_para_afd afnd).estado_inicial ∈
        (converter_afnd_para_afd afnd).estados_finais) from rfl]
    rw [hini, decide_eq_true_eq, List.foldl_nil]
    exact build_final_iff afnd hinj _ hS0
  | cons c w =>
    rw [show reconhecerPalavra (converter_afnd_para_afd afnd) (c :: w) =
      simular (converter_afnd_para_afd afnd)
        (converter_afnd_para_afd afnd).estado_inicial (c :: w) from rfl]
    rw [hini]
    exact build_sim afnd hinj (c :: w) _ hS0 hw

/-! ## The recognizer against the specified run function -/

theorem simular_deltaStar (afd : AFD) (q : String) (w : List Char) :
    simular afd q w =
      match deltaStar afd q w with
      | none => false
      | some qf => decide (qf ∈ afd.estados_finais) := by
  induction w generalizing q with
  | nil => rfl
  | cons c w ih =>
    by_cases hc : String.singleton c ∉ afd.alfabeto
    · rw [simular, deltaStar, if_pos hc, if_pos hc]
    · rw [simular, deltaStar, if_neg hc, if_neg hc]
      cases hlook : dictGet afd.transicoes (q, String.singleton c) with
      | none => rfl
      | some prox => exact ih prox

/-! ## Lemmas about the AFND reader -/

theorem lerLinhaAFND_malformada (st : List Transicao × Finset String × List String)
    (linha : String) (h : (palavrasDe linha).length ≠ 3) :
    lerLinhaAFND st linha = (st.1, st.2.1, st.2.2 ++
      ["Aviso: Ignorando linha de transição mal formatada: '" ++ linha ++ "'"]) := by
  rcases hp : palavrasDe linha with _ | ⟨a, _ | ⟨b, _ | ⟨c, _ | ⟨d, l⟩⟩⟩⟩
  · simp [lerLinhaAFND, hp]
  · simp [lerLinhaAFND, hp]
  · simp [lerLinhaAFND, hp]
  · exfalso
    rw [hp] at h
    simp at h
  · simp [lerLinhaAFND, hp]

theorem lerLinhaAFND_fst_indep (tr : List Transicao) (al : Finset String)
    (av av' : List String) (linha : String) :
    (lerLinhaAFND (tr, al, av) linha).1 = (lerLinhaAFND (tr, al, av') linha).1 ∧
    (lerLinhaAFND (tr, al, av) linha).2.1 =
      (lerLinhaAFND (tr, al, av') linha).2.1 := by
  rcases hp : palavrasDe linha with _ | ⟨a, _ | ⟨b, _ | ⟨c, _ | ⟨d, l⟩⟩⟩⟩ <;>
    simp [lerLinhaAFND, hp]

theorem lerLinhaAFND_avisos_mono (st : List Transicao × Finset String × List String)
    (linha : String) : ∀ x ∈ st.2.2, x ∈ (lerLinhaAFND st linha).2.2 := by
  intro x hx
  rcases hp : palavrasDe linha with _ | ⟨a, _ | ⟨b, _ | ⟨c, _ | ⟨d, l⟩⟩⟩⟩
  · simp [lerLinhaAFND, hp, hx]
  · simp [lerLinhaAFND, hp, hx]
  · simp [lerLinhaAFND, hp, hx]
  · simp only [lerLinhaAFND, hp]
    split
    · exact List.mem_append_left _ hx
    · exact hx
  · simp [lerLinhaAFND, hp, hx]

theorem foldLer_fst_indep (L : List String) :
    ∀ (tr : List Transicao) (al : Finset String) (av av' : List String),
    ((L.foldl lerLinhaAFND (tr, al, av)).1 =
      (L.foldl lerLinhaAFND (tr, al, av')).1) ∧
    ((L.foldl lerLinhaAFND (tr, al, av)).2.1 =
      (L.foldl lerLinhaAFND (tr, al, av')).2.1) := by
  induction L with
  | nil => intro tr al av av'; exact ⟨rfl, rfl⟩
  | cons linha L ih =>
    intro tr al av av'
    rw [List.foldl_cons, List.foldl_cons]
    obtain ⟨h1, h2⟩ := lerLinhaAFND_fst_indep tr al av av' linha
    rcases hA : lerLinhaAFND (tr, al, av) linha with ⟨t2, a2, v2⟩
    rcases hB : lerLinhaAFND (tr, al, av') linha with ⟨t2', a2', v2'⟩
    rw [hA, hB] at h1 h2
    simp only at h1 h2
    subst h1
    subst h2
    exact ih t2 a2 v2 v2'

theorem foldLer_avisos_mono (L : List String) :
    ∀ (st : List Transicao × Finset String × List String) (x : String),
    x ∈ st.2.2 → x ∈ (L.foldl lerLinhaAFND st).2.2 := by
  induction L with
  | nil => exact fun st x hx => hx
  | cons linha L ih =>
    intro st x hx
    rw [List.foldl_cons]
    exact ih _ x (lerLinhaAFND_avisos_mono st linha x hx)

theorem limpa_id (L : List String)
    (h : ∀ x ∈ L, tiraEspacos x = x ∧ x ≠ "") :
    (L.map tiraEspacos).filter (· ≠ "") = L := by
  induction L with
  | nil => rfl
  | cons a L ih =>
    obtain ⟨h1, h2⟩ := h a (List.mem_cons_self _ _)
    rw [List.map_cons, List.filter_cons, h1,
      ih fun x hx => h x (List.mem_cons_of_mem _ hx)]
    split
    · rfl
    · next hf =>
        exfalso
        simp at hf
        exact h2 hf

theorem lerLinhaAFND_simbolos (st : List Transicao × Finset String × List String)
    (linha : String)
    (hal : ∀ a ∈ st.2.1, a = "0" ∨ a = "1")
    (htr : ∀ t ∈ st.1, t.2.1 = "0" ∨ t.2.1 = "1" ∨ t.2.1 = "h") :
    (∀ a ∈ (lerLinhaAFND st linha).2.1, a = "0" ∨ a = "1") ∧
    (∀ t ∈ (lerLinhaAFND st linha).1, t.2.1 = "0" ∨ t.2.1 = "1" ∨ t.2.1 = "h") := by
  rcases hp : palavrasDe linha with _ | ⟨o, _ | ⟨s, _ | ⟨d, _ | ⟨e, l⟩⟩⟩⟩
  · rw [lerLinhaAFND_malformada st linha (by rw [hp]; simp)]
    exact ⟨hal, htr⟩
  · rw [lerLinhaAFND_malformada st linha (by rw [hp]; simp)]
    exact ⟨hal, htr⟩
  · rw [lerLinhaAFND_malformada st linha (by rw [hp]; simp)]
    exact ⟨hal, htr⟩
  · by_cases hcond : s ≠ "0" ∧ s ≠ "1" ∧ s ≠ "h"
    · constructor
      · intro a ha
        apply hal
        simpa [lerLinhaAFND, hp, hcond] using ha
      · intro t ht
        simp only [lerLinhaAFND, hp] at ht
        rw [if_pos hcond] at ht
        have ht2 : t ∈ st.1 ∨ t = (o, "h", d) := by simpa using ht
        rcases ht2 with h2 | h2
        · exact htr t h2
        · rw [h2]
          exact Or.inr (Or.inr rfl)
    · have hs : s = "0" ∨ s = "1" ∨ s = "h" := by
        by_contra hh
        push_neg at hh
        exact hcond ⟨hh.1, hh.2.1, hh.2.2⟩
      constructor
      · intro a ha
        simp only [lerLinhaAFND, hp] at ha
        rw [if_neg hcond] at ha
        by_cases hsh : s ≠ "h"
        · rw [if_pos hsh] at ha
          rcases Finset.mem_insert.mp ha with h2 | h2
          · subst h2
            rcases hs with h3 | h3 | h3
            · exact Or.inl h3
            · exact Or.inr h3
            · exact absurd h3 hsh
          · exact hal a h2
        · rw [if_neg hsh] at ha
          exact hal a (by simpa using ha)
      · intro t ht
        simp only [lerLinhaAFND, hp] at ht
        rw [if_neg hcond] at ht
        have ht2 : t ∈ st.1 ∨ t = (o, s, d) := by simpa using ht
        rcases ht2 with h2 | h2
        · exact htr t h2
        · rw [h2]
          exact hs
  · rw [lerLinhaAFND_malformada st linha (by rw [hp]; simp)]
    exact ⟨hal, htr⟩

theorem foldLer_simbolos (L : List String) :
    ∀ st : List Transicao × Finset String × List String,
    (∀ a ∈ st.2.1, a = "0" ∨ a = "1") →
    (∀ t ∈ st.1, t.2.1 = "0" ∨ t.2.1 = "1" ∨ t.2.1 = "h") →
    (∀ a ∈ (L.foldl lerLinhaAFND st).2.1, a = "0" ∨ a = "1") ∧
    (∀ t ∈ (L.foldl lerLinhaAFND st).1, t.2.1 = "0" ∨ t.2.1 = "1" ∨ t.2.1 = "h") := by
  induction L with
  | nil => exact fun st hal htr => ⟨hal, htr⟩
  | cons linha L ih =>
    intro st hal htr
    rw [List.foldl_cons]
    obtain ⟨h1, h2⟩ := lerLinhaAFND_simbolos st linha hal htr
    exact ih _ h1 h2

theorem lerAFNDLinhas_cons (l0 l1 l2 : String) (resto : List String) :
    lerAFNDLinhas (l0 :: l1 :: l2 :: resto) =
      some
        ({ estados := (palavrasDe l0).toFinset
           alfabeto := ordenaFinset (resto.foldl lerLinhaAFND ([], ∅, [])).2.1
           transicoes := (resto.foldl lerLinhaAFND ([], ∅, [])).1
           estado_inicial := l1
           estados_finais := (palavrasDe l2).toFinset },
          (resto.foldl lerLinhaAFND ([], ∅, [])).2.2) := rfl

theorem ler_afnd_limpo (l0 l1 l2 : String) (resto : List String)
    (hcl : ∀ x ∈ l0 :: l1 :: l2 :: resto, tiraEspacos x = x ∧ x ≠ "") :
    ler_afnd (l0 :: l1 :: l2 :: resto) = lerAFNDLinhas (l0 :: l1 :: l2 :: resto) := by
  unfold ler_afnd
  rw [limpa_id _ hcl]

theorem ler_afnd_pula (l0 l1 l2 : String) (pre post : List String)
    (linha : String) (h3 : (palavrasDe linha).length ≠ 3)
    (hcl : ∀ x ∈ l0 :: l1 :: l2 :: (pre ++ linha :: post),
      tiraEspacos x = x ∧ x ≠ "") :
    ((ler_afnd (l0 :: l1 :: l2 :: (pre ++ linha :: post))).map fun p => p.1) =
      ((ler_afnd (l0 :: l1 :: l2 :: (pre ++ post))).map fun p => p.1) ∧
    ∀ afnd avisos,
      ler_afnd (l0 :: l1 :: l2 :: (pre ++ linha :: post)) = some (afnd, avisos) →
      ("Aviso: Ignorando linha de transição mal formatada: '" ++ linha ++ "'")
        ∈ avisos := by
  have hcl2 : ∀ x ∈ l0 :: l1 :: l2 :: (pre ++ post), tiraEspacos x = x ∧ x ≠ "" := by
    intro x hx
    refine hcl x ?_
    rcases List.mem_cons.mp hx with h | hx2
    · exact h ▸ List.mem_cons_self _ _
    · refine List.mem_cons_of_mem _ ?_
      rcases List.mem_cons.mp hx2 with h | hx3
      · exact h ▸ List.mem_cons_self _ _
      · refine List.mem_cons_of_mem _ ?_
        rcases List.mem_cons.mp hx3 with h | hx4
        · exact h ▸ List.mem_cons_self _ _
        · refine List.mem_cons_of_mem _ ?_
          rcases List.mem_append.mp hx4 with h | h
          · exact List.mem_append_left _ h
          · exact List.mem_append_right _ (List.mem_cons_of_mem _ h)
  rw [ler_afnd_limpo _ _ _ _ hcl, ler_afnd_limpo _ _ _ _ hcl2,
    lerAFNDLinhas_cons, lerAFNDLinhas_cons]
  have hsplit : (pre ++ linha :: post).foldl lerLinhaAFND
      (([], ∅, []) : List Transicao × Finset String × List String) =
      post.foldl lerLinhaAFND
        (lerLinhaAFND (pre.foldl lerLinhaAFND ([], ∅, [])) linha) := by
    rw [List.foldl_append, List.foldl_cons]
  have hsplit2 : (pre ++ post).foldl lerLinhaAFND
      (([], ∅, []) : List Transicao × Finset String × List String) =
      post.foldl lerLinhaAFND (pre.foldl lerLinhaAFND ([], ∅, [])) := by
    rw [List.foldl_append]
  rcases hpre : pre.foldl lerLinhaAFND
      (([], ∅, []) : List Transicao × Finset String × List String) with ⟨t1, a1, v1⟩
  have hlin : lerLinhaAFND (t1, a1, v1) linha = (t1, a1, v1 ++
      ["Aviso: Ignorando linha de transição mal formatada: '" ++ linha ++ "'"]) :=
    lerLinhaAFND_malformada _ _ h3
  constructor
  · rw [hsplit, hpre, hlin, hsplit2, hpre]
    have hind := foldLer_fst_indep post t1 a1
      (v1 ++ ["Aviso: Ignorando linha de transição mal formatada: '" ++ linha ++ "'"]) v1
    rw [hind.1, hind.2]
    simp
  · intro afnd avisos hsome
    rw [hsplit, hpre, hlin] at hsome
    have hmem : ("Aviso: Ignorando linha de transição mal formatada: '" ++ linha
        ++ "'") ∈ (post.foldl lerLinhaAFND (t1, a1, v1 ++
          ["Aviso: Ignorando linha de transição mal formatada: '" ++ linha ++ "'"])).2.2 := by
      refine foldLer_avisos_mono post _ _ ?_
      exact List.mem_append_right _ (List.mem_singleton_self _)
    have havisos : avisos = (post.foldl lerLinhaAFND (t1, a1, v1 ++
        ["Aviso: Ignorando linha de transição mal formatada: '" ++ linha ++ "'"])).2.2 := by
      have := congrArg (fun o => o.map fun p : AFND × List String => p.2) hsome
      simpa using this.symm
    rw [havisos]
    exact hmem

theorem ler_afnd_simbolos (linhas : List String) (afnd : AFND)
    (avisos : List String) (h : ler_afnd linhas = some (afnd, avisos)) :
    (∀ a ∈ afnd.alfabeto, a = "0" ∨ a = "1") ∧
    (∀ t ∈ afnd.transicoes, t.2.1 = "0" ∨ t.2.1 = "1" ∨ t.2.1 = "h") := by
  unfold ler_afnd at h
  rcases hcl : (linhas.map tiraEspacos).filter (· ≠ "") with
    _ | ⟨l0, _ | ⟨l1, _ | ⟨l2, resto⟩⟩⟩ <;> rw [hcl] at h
  · simp [lerAFNDLinhas] at h
  · simp [lerAFNDLinhas] at h
  · simp [lerAFNDLinhas] at h
  · rw [lerAFNDLinhas_cons, Option.some.injEq, Prod.mk.injEq] at h
    obtain ⟨hA, _⟩ := h
    subst hA
    obtain ⟨hal, htr⟩ := foldLer_simbolos resto ([], ∅, [])
      (by intro a ha; simp at ha) (by intro t ht; simp at ht)
    constructor
    · intro a ha
      exact hal a (mem_ordenaFinset.mp ha)
    · intro t ht
      exact htr t ht

theorem build_valores_nodup (afnd : AFND) (hinj : NomesInj afnd) :
    ((converter_build afnd).mapa.map Prod.snd).Nodup := by
  have hI := converter_build_inv1 afnd
  have heq : (converter_build afnd).mapa.map Prod.snd =
      ((converter_build afnd).mapa.map Prod.fst).map gerar_nome_estado := by
    rw [List.map_map]
    exact List.map_congr_left hI.vals
  rw [heq]
  refine List.Nodup.map_on ?_ hI.keysNodup
  intro x hx y hy hxy
  have hxe : x ∈ (converter_build afnd).explorados := (hI.keysExpl x).mpr hx
  have hye : y ∈ (converter_build afnd).explorados := (hI.keysExpl y).mpr hy
  exact hinj x y (hI.bounds x hxe).2 (hI.bounds y hye).2 hxy

/-! ## Claims -/

/-- Claim C1, counterexample to the claim as stated: `nfaColisao` is a
well-formed nondeterministic automaton (declared initial state, declared
final states, declared transition endpoints, epsilon excluded from the
alphabet), yet the deterministic automaton produced by
`converter_afnd_para_afd` accepts the empty string while the source automaton,
simulated by closure + move, rejects it: the name collision between the
composites {A, B} and {AB} merges two distinct states. -/
theorem C1_contraexemplo :
    nfaColisao.estado_inicial ∈ nfaColisao.estados ∧
    nfaColisao.estados_finais ⊆ nfaColisao.estados ∧
    (∀ t ∈ nfaColisao.transicoes,
      t.1 ∈ nfaColisao.estados ∧ t.2.2 ∈ nfaColisao.estados) ∧
    "h" ∉ nfaColisao.alfabeto ∧
    reconhecerPalavra (converter_afnd_para_afd nfaColisao) [] = true ∧
    ¬ nfaAceita nfaColisao [] := by
  decide

/-- Claim C1, amended: provided every state identifier that can occur in a
composite state (the initial state and every transition destination) is a
single character — which makes the concatenation naming collision-free — the
deterministic automaton produced by `converter_afnd_para_afd` accepts exactly
the strings over the alphabet that the source nondeterministic automaton
accepts under epsilon-closure + move simulation, for all strings (hence for
all strings up to any bounded length). -/
theorem C1_convertido_preserva_linguagem (afnd : AFND)
    (h1 : ∀ s ∈ universo afnd, s.length = 1) (w : List Char)
    (hw : ∀ c ∈ w, String.singleton c ∈ afnd.alfabeto) :
    reconhecerPalavra (converter_afnd_para_afd afnd) w = true ↔ nfaAceita afnd w :=
  converter_preserva afnd (nomes_inj_of_len1 afnd h1) w hw

/-- Claim C1, witness: the amended equivalence applied to the specification's
example automaton and the word "0". -/
theorem C1_testemunha :
    (∀ s ∈ universo nfaExemplo, s.length = 1) ∧
    (∀ c ∈ (['0'] : List Char), String.singleton c ∈ nfaExemplo.alfabeto) ∧
    (reconhecerPalavra (converter_afnd_para_afd nfaExemplo) ['0'] = true ↔
      nfaAceita nfaExemplo ['0']) :=
  ⟨by decide, by decide,
    C1_convertido_preserva_linguagem nfaExemplo (by decide) ['0'] (by decide)⟩

/-- Claim C2, counterexample to the claim as stated: in the run of the subset
construction on `nfaColisao`, the name dictionary ends with two entries whose
keys are distinct composite states but whose assigned names are both "AB":
two different composite states received the same name. -/
theorem C2_contraexemplo :
    ((converter_build nfaColisao).mapa.map Prod.fst).Nodup ∧
    (converter_build nfaColisao).mapa.map Prod.snd = ["AB", "AB"] := by
  decide

/-- Claim C2, amended: on every run the naming is stable — every composite
state is entered at most once in the name dictionary (so a rediscovered
composite resolves to its already-assigned name), and each assigned name is
exactly the concatenation of the sorted member identifiers — and it is
collision-free provided all state identifiers are single characters; without
that proviso distinct composite states can collide (`C2_contraexemplo`). -/
theorem C2_nomes_estaveis (afnd : AFND) :
    ((converter_build afnd).mapa.map Prod.fst).Nodup ∧
    (∀ p ∈ (converter_build afnd).mapa, p.2 = gerar_nome_estado p.1) ∧
    ((∀ s ∈ universo afnd, s.length = 1) →
      ((converter_build afnd).mapa.map Prod.snd).Nodup) :=
  ⟨(converter_build_inv1 afnd).keysNodup,
    (converter_build_inv1 afnd).vals,
    fun h1 => build_valores_nodup afnd (nomes_inj_of_len1 afnd h1)⟩

/-- Claim C2, witness: on the example automaton the name dictionary is
stable, and its single-character states make it collision-free as well. -/
theorem C2_testemunha :
    (∀ s ∈ universo nfaExemplo, s.length = 1) ∧
    ((converter_build nfaExemplo).mapa.map Prod.fst).Nodup ∧
    (∀ p ∈ (converter_build nfaExemplo).mapa, p.2 = gerar_nome_estado p.1) ∧
    ((converter_build nfaExemplo).mapa.map Prod.snd).Nodup :=
  ⟨by decide, (C2_nomes_estaveis nfaExemplo).1, (C2_nomes_estaveis nfaExemplo).2.1,
    (C2_nomes_estaveis nfaExemplo).2.2 (by decide)⟩

/-- Claim C3: for every deterministic automaton and every non-empty word,
recognition starts at the initial state and follows the specified run
function — reject as soon as a symbol is outside the alphabet or the
transition is undefined, otherwise move to the returned state — and after
consuming all symbols it accepts iff the reached state is final. -/
theorem C3_reconhecimento_segue_delta (afd : AFD) (w : List Char)
    (hw : w ≠ []) :
    reconhecerPalavra afd w =
      match deltaStar afd afd.estado_inicial w with
      | none => false
      | some qf => decide (qf ∈ afd.estados_finais) := by
  cases w with
  | nil => exact absurd rfl hw
  | cons c w =>
    rw [show reconhecerPalavra afd (c :: w) =
      simular afd afd.estado_inicial (c :: w) from rfl]
    exact simular_deltaStar afd _ _

/-- Claim C3, witness: the characterization applied to `afdSimples` and the
word "0". -/
theorem C3_testemunha :
    ((['0'] : List Char) ≠ []) ∧
    (reconhecerPalavra afdSimples ['0'] =
      match deltaStar afdSimples afdSimples.estado_inicial ['0'] with
      | none => false
      | some qf => decide (qf ∈ afdSimples.estados_finais)) :=
  ⟨by decide, C3_reconhecimento_segue_delta afdSimples ['0'] (by decide)⟩

/-- Claim C4: the word file ["", "0"] has two input lines, but
`reconhecer_palavras` strips and drops blank lines before testing, so it
emits a single verdict — the empty input line produces no verdict at all,
although the recognizer contains a dedicated (now unreachable) empty-word
branch that would accept iff the initial state is final. -/
theorem C4_linha_vazia_descartada :
    reconhecer_palavras afdSimples ["", "0"] = ["0 aceito"] := by
  decide

/-- Claim C5: for every non-empty state set and every transition relation,
the epsilon closure is idempotent and contains its seed. -/
theorem C5_fecho_idempotente_monotono (S : Finset String)
    (rel : List Transicao) (_hS : S.Nonempty) :
    fecho_vazio (fecho_vazio S rel) rel = fecho_vazio S rel ∧
      S ⊆ fecho_vazio S rel :=
  ⟨fecho_vazio_idem S rel, fecho_vazio_subset S rel⟩

/-- Claim C5, witness: idempotence and monotonicity at the seed {A} over the
relation with a single epsilon edge A→B. -/
theorem C5_testemunha :
    (({"A"} : Finset String).Nonempty) ∧
    (fecho_vazio (fecho_vazio {"A"} [("A", "h", "B")]) [("A", "h", "B")] =
        fecho_vazio {"A"} [("A", "h", "B")] ∧
      ({"A"} : Finset String) ⊆ fecho_vazio {"A"} [("A", "h", "B")]) :=
  ⟨⟨"A", by decide⟩,
    C5_fecho_idempotente_monotono {"A"} [("A", "h", "B")] ⟨"A", by decide⟩⟩

/-- Claim C6: whenever the epsilon closure of the move on a symbol is empty,
the construction records no transition for that (state, symbol), creates and
enqueues no state (the whole step is the identity), and the implicit sink —
the empty composite — is never present among the discovered states, the name
dictionary keys, or the final composite states, for any input automaton. -/
theorem C6_conjunto_vazio_descartado :
    (∀ (afnd : AFND) (atual : Finset String) (st : BuildSt) (a : String),
      fecho_vazio (mover atual a afnd.transicoes) afnd.transicoes = ∅ →
      processSymbol afnd atual st a = st) ∧
    (∀ afnd : AFND,
      (∀ S ∈ (converter_build afnd).explorados, S ≠ ∅) ∧
      (∀ p ∈ (converter_build afnd).mapa, p.1 ≠ ∅) ∧
      (∀ S ∈ (converter_build afnd).finais, S ≠ ∅)) := by
  constructor
  · intro afnd atual st a h
    exact processSymbol_of_empty h
  · intro afnd
    have hI := converter_build_inv1 afnd
    refine ⟨fun S hS => (hI.bounds S hS).1, ?_, ?_⟩
    · intro p hp
      have : p.1 ∈ (converter_build afnd).mapa.map Prod.fst :=
        List.mem_map.mpr ⟨p, hp, rfl⟩
      exact (hI.bounds p.1 ((hI.keysExpl p.1).mpr this)).1
    · intro S hS
      exact (hI.bounds S ((hI.finaisSub S hS).1)).1

/-- Claim C6, witness: on the example automaton, the move of {C} on symbol 1
has empty closure and the symbol step leaves the construction state
untouched. -/
theorem C6_testemunha :
    (fecho_vazio (mover {"C"} "1" nfaExemplo.transicoes)
      nfaExemplo.transicoes = ∅) ∧
    processSymbol nfaExemplo {"C"} ⟨[], ∅, [], [], ∅⟩ "1" = ⟨[], ∅, [], [], ∅⟩ :=
  ⟨by decide,
    C6_conjunto_vazio_descartado.1 nfaExemplo {"C"} ⟨[], ∅, [], [], ∅⟩ "1"
      (by decide)⟩

/-- Claim C7, counterexample to the claim as stated: the AFD reader does not
skip a transition line with the wrong field count — the unpacking raises and
the read aborts (modelled by `none`), while the same file with that line
well-formed is read successfully. -/
theorem C7_contraexemplo :
    ler_afd ["A B", "A", "B", "A 0"] = none ∧
    (ler_afd ["A B", "A", "B", "A 0 B"]).isSome = true := by
  decide

/-- Claim C7, amended: in the AFND reader a transition line with the wrong
field count is skipped — the resulting automaton is the one obtained from the
file without that line — a warning for the line is surfaced, and the
remaining lines are still processed; the AFD reader, by contrast, aborts on
such a line (`C7_contraexemplo`). -/
theorem C7_afnd_pula_linha (l0 l1 l2 : String) (pre post : List String)
    (linha : String) (h3 : (palavrasDe linha).length ≠ 3)
    (hcl : ∀ x ∈ l0 :: l1 :: l2 :: (pre ++ linha :: post),
      tiraEspacos x = x ∧ x ≠ "") :
    ((ler_afnd (l0 :: l1 :: l2 :: (pre ++ linha :: post))).map fun p => p.1) =
      ((ler_afnd (l0 :: l1 :: l2 :: (pre ++ post))).map fun p => p.1) ∧
    ∀ afnd avisos,
      ler_afnd (l0 :: l1 :: l2 :: (pre ++ linha :: post)) = some (afnd, avisos) →
      ("Aviso: Ignorando linha de transição mal formatada: '" ++ linha ++ "'")
        ∈ avisos :=
  ler_afnd_pula l0 l1 l2 pre post linha h3 hcl

/-- Claim C7, witness: the amended statement applied to a concrete AFND file
containing the malformed two-field line "A 0". -/
theorem C7_testemunha :
    ((palavrasDe "A 0").length ≠ 3) ∧
    (∀ x ∈ "A B" :: "A" :: "B" :: ([] ++ "A 0" :: ["A 0 B"]),
      tiraEspacos x = x ∧ x ≠ "") ∧
    (((ler_afnd ("A B" :: "A" :: "B" :: ([] ++ "A 0" :: ["A 0 B"]))).map
        fun p => p.1) =
      ((ler_afnd ("A B" :: "A" :: "B" :: ([] ++ ["A 0 B"]))).map fun p => p.1) ∧
    ∀ afnd avisos,
      ler_afnd ("A B" :: "A" :: "B" :: ([] ++ "A 0" :: ["A 0 B"])) =
        some (afnd, avisos) →
      ("Aviso: Ignorando linha de transição mal formatada: '" ++ "A 0" ++ "'")
        ∈ avisos) :=
  ⟨by decide, by decide,
    C7_afnd_pula_linha "A B" "A" "B" [] ["A 0 B"] "A 0" (by decide) (by decide)⟩

/-- Claim C8: on every input automaton the subset construction runs to
completion and never fails: the exploration queue is fully drained within the
chosen bound, and every dictionary lookup made when assembling the result —
the name of the initial composite and the names of the final composites — is
on a key present in the name dictionary. -/
theorem C8_construcao_total (afnd : AFND) :
    (converter_build afnd).fila = [] ∧
    fecho_vazio {afnd.estado_inicial} afnd.transicoes ∈
      (converter_build afnd).mapa.map Prod.fst ∧
    (∀ S ∈ (converter_build afnd).finais,
      S ∈ (converter_build afnd).mapa.map Prod.fst) := by
  have hI := converter_build_inv1 afnd
  exact ⟨converter_build_fila afnd,
    (hI.keysExpl _).mp hI.inicialMem,
    fun S hS => (hI.keysExpl S).mp (hI.finaisSub S hS).1⟩

/-- Claim C9: for every seed set and every finite transition relation —
including relations with epsilon-cycles — the closure worklist loop drains
its stack within |destinations| + |seed| iterations (the fuel used by
`fecho_vazio`), because membership is checked before pushing; the value of
`fecho_vazio` is exactly the set computed by that terminated run. -/
theorem C9_fecho_termina (origem : Finset String) (rel : List Transicao) :
    (fechoAux rel ((destsOf rel).card + origem.card) origem
      (ordenaFinset origem)).2 = [] ∧
    fecho_vazio origem rel =
      (fechoAux rel ((destsOf rel).card + origem.card) origem
        (ordenaFinset origem)).1 :=
  ⟨fecho_vazio_drained origem rel, rfl⟩

/-- Claim C10: every automaton successfully read by `ler_afnd` has an
alphabet contained in {0, 1} (in particular the epsilon marker h is never in
the alphabet), and every stored transition symbol is 0, 1 or h — a transition
line with any other symbol is stored as an epsilon (h) transition. -/
theorem C10_alfabeto_binario (linhas : List String) (afnd : AFND)
    (avisos : List String) (h : ler_afnd linhas = some (afnd, avisos)) :
    (∀ a ∈ afnd.alfabeto, a = "0" ∨ a = "1") ∧
    ("h" ∉ afnd.alfabeto) ∧
    (∀ t ∈ afnd.transicoes, t.2.1 = "0" ∨ t.2.1 = "1" ∨ t.2.1 = "h") ∧
    (∀ st origem simbolo destino linha2,
      palavrasDe linha2 = [origem, simbolo, destino] →
      ¬(simbolo = "0" ∨ simbolo = "1" ∨ simbolo = "h") →
      (lerLinhaAFND st linha2).1 = st.1 ++ [(origem, "h", destino)]) := by
  obtain ⟨hal, htr⟩ := ler_afnd_simbolos linhas afnd avisos h
  refine ⟨hal, ?_, htr, ?_⟩
  · intro hh
    rcases hal "h" hh with h2 | h2 <;> simp at h2
  · intro st origem simbolo destino linha2 hp hsim
    have hcond : simbolo ≠ "0" ∧ simbolo ≠ "1" ∧ simbolo ≠ "h" := by
      push_neg at hsim
      exact ⟨hsim.1, hsim.2.1, hsim.2.2⟩
    simp only [lerLinhaAFND, hp]
    rw [if_pos hcond]

/-- Claim C10, witness: a file with a stray symbol 2 is read with alphabet
consisting of 0 alone, and the stray line is stored as an epsilon
transition. -/
theorem C10_testemunha :
    ler_afnd ["A B", "A", "B", "A 2 B", "A 0 B"] =
      some ({ estados := {"A", "B"}
              alfabeto := ["0"]
              transicoes := [("A", "h", "B"), ("A", "0", "B")]
              estado_inicial := "A"
              estados_finais := {"B"} },
        ["Aviso: Símbolo '2' na linha 'A 2 B' não pertence ao alfabeto \x7b0,1\x7d ou 'h'. Foi interpretado como 'h'."]) ∧
    ((∀ a ∈ (["0"] : List String), a = "0" ∨ a = "1") ∧
      ("h" ∉ (["0"] : List String)) ∧
      (∀ t ∈ [(("A" : String), ("h" : String), ("B" : String)), ("A", "0", "B")],
        t.2.1 = "0" ∨ t.2.1 = "1" ∨ t.2.1 = "h") ∧
      (∀ st origem simbolo destino linha2,
        palavrasDe linha2 = [origem, simbolo, destino] →
        ¬(simbolo = "0" ∨ simbolo = "1" ∨ simbolo = "h") →
        (lerLinhaAFND st linha2).1 = st.1 ++ [(origem, "h", destino)])) :=
  ⟨by decide,
    C10_alfabeto_binario ["A B", "A", "B", "A 2 B", "A 0 B"]
      { estados := {"A", "B"}
        alfabeto := ["0"]
        transicoes := [("A", "h", "B"), ("A", "0", "B")]
        estado_inicial := "A"
        estados_finais := {"B"} }
      ["Aviso: Símbolo '2' na linha 'A 2 B' não pertence ao alfabeto \x7b0,1\x7d ou 'h'. Foi interpretado como 'h'."]
      (by decide)⟩
